import Mathlib

/-!
Verification of the gonfic configuration library (flatten/unflatten engine,
source override protocol, configuration store and decode glue).

Go strings are modelled as lists of characters, Go maps as association
lists with unique keys; Go map equality (reflect.DeepEqual) is extensional
equality of lookups.  Fallible Go code (panics, returned errors) is
modelled with Option/Except.
-/

namespace Gonfic

/-- A Go string, modelled as its list of characters. -/
abbrev GoStr := List Char

/-- Coerce a Lean string literal to a `GoStr`. -/
def gs (s : String) : GoStr := s.data

/-- `dotSlicer` : `strings.Split(s, ".")` — split a string on every dot.
Always returns a non-empty list. -/
def splitDot : GoStr → List GoStr
  | [] => [[]]
  | c :: rest =>
    if c = '.' then [] :: splitDot rest
    else
      match splitDot rest with
      | [] => [[c]]
      | t :: ts => (c :: t) :: ts

/-- `dotJoiner` : `strings.Join(a, ".")` — concatenate segments with a dot. -/
def joinDot : List GoStr → GoStr
  | [] => []
  | [s] => s
  | s :: rest => s ++ '.' :: joinDot rest

/-- A segment contains no dot. -/
def dotFreeSeg (s : GoStr) : Bool := s.all (fun c => c != '.')

theorem splitDot_ne_nil (s : GoStr) : splitDot s ≠ [] := by
  cases s with
  | nil => simp [splitDot]
  | cons c rest =>
    simp only [splitDot]
    split
    · simp
    · cases h : splitDot rest <;> simp

theorem joinDot_cons_of_ne_nil (s : GoStr) (l : List GoStr) (h : l ≠ []) :
    joinDot (s :: l) = s ++ '.' :: joinDot l := by
  cases l with
  | nil => exact absurd rfl h
  | cons a t => rfl

/-- Joining the segments of a split reproduces the original string
(`strings.Join(strings.Split(s, "."), ".") == s`). -/
theorem joinDot_splitDot (s : GoStr) : joinDot (splitDot s) = s := by
  induction s with
  | nil => rfl
  | cons c rest ih =>
    simp only [splitDot]
    split
    · rename_i hc
      rw [joinDot_cons_of_ne_nil _ _ (splitDot_ne_nil rest)]
      simp [hc, ih]
    · cases h : splitDot rest with
      | nil => exact absurd h (splitDot_ne_nil rest)
      | cons t ts =>
        rw [h] at ih
        cases ts with
        | nil => simp [joinDot] at ih ⊢; simp [ih]
        | cons u us =>
          rw [joinDot_cons_of_ne_nil _ _ (by simp)] at ih ⊢
          simpa using ih

/-- `splitDot` is injective (two distinct keys have distinct segment paths). -/
theorem splitDot_inj {s t : GoStr} (h : splitDot s = splitDot t) : s = t := by
  have := joinDot_splitDot s
  rw [h, joinDot_splitDot] at this
  exact this.symm

theorem splitDot_of_dotFree (s : GoStr) (h : dotFreeSeg s = true) :
    splitDot s = [s] := by
  induction s with
  | nil => rfl
  | cons c rest ih =>
    simp only [dotFreeSeg, List.all_cons, Bool.and_eq_true, bne_iff_ne] at h
    simp only [splitDot, if_neg h.1]
    rw [ih (by simpa [dotFreeSeg] using h.2)]

theorem splitDot_append_dot (s w : GoStr) (h : dotFreeSeg s = true) :
    splitDot (s ++ '.' :: w) = s :: splitDot w := by
  induction s with
  | nil => simp [splitDot]
  | cons c rest ih =>
    simp only [dotFreeSeg, List.all_cons, Bool.and_eq_true, bne_iff_ne] at h
    simp only [List.cons_append, splitDot, if_neg h.1, List.append_eq]
    rw [ih (by simpa [dotFreeSeg] using h.2)]

/-- Splitting a join reproduces the segments, provided every segment is
dot-free and the list is non-empty. -/
theorem splitDot_joinDot (p : List GoStr) (hne : p ≠ [])
    (hdf : ∀ s ∈ p, dotFreeSeg s = true) : splitDot (joinDot p) = p := by
  induction p with
  | nil => exact absurd rfl hne
  | cons s rest ih =>
    cases rest with
    | nil => exact splitDot_of_dotFree s (hdf s (by simp))
    | cons t ts =>
      rw [joinDot_cons_of_ne_nil _ _ (by simp)]
      rw [splitDot_append_dot _ _ (hdf s (by simp))]
      rw [ih (by simp) (fun u hu => hdf u (by simp [hu]))]

/-! ## Go maps as association lists -/

/-- Go map read `m[k]`: first matching entry. -/
def getk {α : Type} : List (GoStr × α) → GoStr → Option α
  | [], _ => none
  | (k, v) :: rest, q => if k = q then some v else getk rest q

/-- Go map write `m[k] = v`: replace in place, or append a new entry. -/
def setk {α : Type} : List (GoStr × α) → GoStr → α → List (GoStr × α)
  | [], q, v => [(q, v)]
  | (k, w) :: rest, q, v =>
    if k = q then (q, v) :: rest else (k, w) :: setk rest q v

/-- The keys of an association list are pairwise distinct
(inherent in any list representing a Go map). -/
def keysNodup {α : Type} (l : List (GoStr × α)) : Prop :=
  (l.map Prod.fst).Nodup

instance {α : Type} (l : List (GoStr × α)) : Decidable (keysNodup l) := by
  unfold keysNodup; infer_instance

theorem getk_setk_self {α : Type} (l : List (GoStr × α)) (k : GoStr) (v : α) :
    getk (setk l k v) k = some v := by
  induction l with
  | nil => simp [setk, getk]
  | cons e rest ih =>
    obtain ⟨k', w⟩ := e
    by_cases h : k' = k
    · simp [setk, h, getk]
    · simp [setk, h, getk, ih]

theorem getk_setk_ne {α : Type} (l : List (GoStr × α)) (k q : GoStr) (v : α)
    (h : k ≠ q) : getk (setk l k v) q = getk l q := by
  induction l with
  | nil => simp [setk, getk, h]
  | cons e rest ih =>
    obtain ⟨k', w⟩ := e
    by_cases h' : k' = k
    · subst h'
      simp [setk, getk, h]
    · simp only [setk, if_neg h']
      by_cases h'' : k' = q <;> simp [getk, h'', ih]

theorem getk_eq_none_of_not_mem {α : Type} (l : List (GoStr × α)) (q : GoStr)
    (h : q ∉ l.map Prod.fst) : getk l q = none := by
  induction l with
  | nil => rfl
  | cons e rest ih =>
    obtain ⟨k, v⟩ := e
    simp only [List.map_cons, List.mem_cons] at h
    push_neg at h
    have hk : ¬ k = q := fun hk => h.1 hk.symm
    simp [getk, hk, ih h.2]

theorem getk_isSome_iff_mem {α : Type} (l : List (GoStr × α)) (q : GoStr) :
    (getk l q).isSome ↔ q ∈ l.map Prod.fst := by
  induction l with
  | nil => simp [getk]
  | cons e rest ih =>
    obtain ⟨k, v⟩ := e
    simp only [getk, List.map_cons, List.mem_cons]
    by_cases h : k = q
    · subst h
      rw [if_pos rfl]
      exact ⟨fun _ => Or.inl rfl, fun _ => rfl⟩
    · rw [if_neg h]
      constructor
      · intro hs
        exact Or.inr (ih.mp hs)
      · intro hm
        rcases hm with hm | hm
        · exact absurd hm.symm h
        · exact ih.mpr hm

theorem getk_of_mem_nodup {α : Type} (l : List (GoStr × α)) (k : GoStr) (v : α)
    (hmem : (k, v) ∈ l) (hnd : keysNodup l) : getk l k = some v := by
  induction l with
  | nil => simp at hmem
  | cons e rest ih =>
    obtain ⟨k', w⟩ := e
    simp only [keysNodup, List.map_cons, List.nodup_cons] at hnd
    rcases List.mem_cons.mp hmem with h | h
    · cases h
      simp [getk]
    · have hk : k' ≠ k := by
        intro he
        exact hnd.1 (he ▸ (List.mem_map.mpr ⟨(k, v), h, rfl⟩))
      simp [getk, hk, ih h hnd.2]

theorem mem_of_getk_eq_some {α : Type} (l : List (GoStr × α)) (k : GoStr) (v : α)
    (h : getk l k = some v) : (k, v) ∈ l := by
  induction l with
  | nil => simp [getk] at h
  | cons e rest ih =>
    obtain ⟨k', w⟩ := e
    simp only [getk] at h
    split at h
    · rename_i hk
      subst hk
      injection h with hv
      subst hv
      exact List.mem_cons_self _ _
    · exact List.mem_cons_of_mem _ (ih h)

theorem map_fst_setk {α : Type} (l : List (GoStr × α)) (k : GoStr) (v : α)
    (h : (getk l k).isSome) : (setk l k v).map Prod.fst = l.map Prod.fst := by
  induction l with
  | nil => simp [getk] at h
  | cons e rest ih =>
    obtain ⟨k', w⟩ := e
    by_cases hk : k' = k
    · simp [setk, hk]
    · simp only [getk, if_neg hk] at h
      simp [setk, hk, ih h]

theorem map_fst_setk_not_mem {α : Type} (l : List (GoStr × α)) (k : GoStr) (v : α)
    (h : getk l k = none) : setk l k v = l ++ [(k, v)] := by
  induction l with
  | nil => simp [setk]
  | cons e rest ih =>
    obtain ⟨k', w⟩ := e
    by_cases hk : k' = k
    · simp [getk, hk] at h
    · simp only [getk, if_neg hk] at h
      simp [setk, hk, ih h]

/-! ## Leaf values and hierarchical maps

A leaf value is anything stored under `interface\x7b\x7d` in a flat map that
is not itself a `map[string]interface\x7b\x7d`: strings (the only thing the
environment source produces), booleans, integers, durations, null. -/

inductive Prim : Type where
  | str : GoStr → Prim
  | bool : Bool → Prim
  | int : Int → Prim
  | dur : Int → Prim
  | null : Prim
deriving DecidableEq

/-- A node of a hierarchical map: either a leaf value or a nested mapping
(`map[string]interface\x7b\x7d`), the mapping given as an association list. -/
inductive Val : Type where
  | prim : Prim → Val
  | node : List (GoStr × Val) → Val

/-- A hierarchical map (Go `map[string]interface\x7b\x7d` with nested maps). -/
abbrev Tree := List (GoStr × Val)

/-- A flat map: dotted keys to leaf values. -/
abbrev FlatMap := List (GoStr × Prim)

/-! ## flatten (source lines 541-558) -/

mutual
/-- One step of `flattenrec`'s loop body for entry `(k, v)` under path
`keys`: if the value is a mapping, recurse with the segment appended,
otherwise emit the path and the leaf. -/
def flattenVal (k : GoStr) (v : Val) (keys : List GoStr) :
    List (List GoStr × Prim) :=
  match v with
  | .prim p => [(keys ++ [k], p)]
  | .node sub => flattenEntries sub (keys ++ [k])

/-- `flattenrec`: iterate the entries of a mapping, emitting
`(path, leaf)` pairs in traversal order. -/
def flattenEntries (t : List (GoStr × Val)) (keys : List GoStr) :
    List (List GoStr × Prim) :=
  match t with
  | [] => []
  | (k, v) :: rest => flattenVal k v keys ++ flattenEntries rest keys
end

/-- The leaf paths of a tree, in traversal order. -/
def leafPaths (t : Tree) : List (List GoStr × Prim) := flattenEntries t []

/-- Build a flat map by successive Go map writes (`flatmap[k] = v`). -/
def foldSet (init : FlatMap) (l : List (GoStr × Prim)) : FlatMap :=
  l.foldl (fun m kv => setk m kv.1 kv.2) init

/-- `flatten` (lines 541-547): run `flattenrec` from the root and write
each emitted `(join(path), value)` into the result map. -/
def flatten (t : Tree) : FlatMap :=
  foldSet [] ((flattenEntries t []).map (fun pv => (joinDot pv.1, pv.2)))

/-! ## unflatten (source lines 523-539) -/

/-- The inner loop of `unflatten` for one flat entry: descend/create
intermediate mapping nodes for every segment but the last, then write the
leaf at the last segment.  Returns `none` where the Go code panics: on the
type assertion `node.(map[string]interface\x7b\x7d)` when an existing
intermediate node is a leaf (and on an empty segment list, where
`keys[len(keys)-1]` would be out of range — unreachable, since
`strings.Split` never returns an empty slice). -/
def insertPath (t : Tree) (p : List GoStr) (v : Prim) : Option Tree :=
  match p with
  | [] => none
  | [k] => some (setk t k (.prim v))
  | k :: rest =>
    match getk t k with
    | none =>
      match insertPath [] rest v with
      | some sub => some (setk t k (.node sub))
      | none => none
    | some (.node sub) =>
      match insertPath sub rest v with
      | some sub' => some (setk t k (.node sub'))
      | none => none
    | some (.prim _) => none

/-- The `range` loop of `unflatten`, processing the flat entries in the
order given (Go map iteration order is unspecified; theorems quantify over
it). -/
def unflattenFrom (t : Tree) : List (GoStr × Prim) → Option Tree
  | [] => some t
  | (k, v) :: rest =>
    match insertPath t (splitDot k) v with
    | some t' => unflattenFrom t' rest
    | none => none

/-- `unflatten` (lines 523-539): split each flat key on dots and insert its
leaf into an initially empty tree. -/
def unflatten (fm : FlatMap) : Option Tree := unflattenFrom [] fm

/-! ## Path prefix order -/

/-- `pfxB p q`: the segment list `p` is a (not necessarily strict) prefix
of `q`. -/
def pfxB : List GoStr → List GoStr → Bool
  | [], _ => true
  | _ :: _, [] => false
  | a :: p, b :: q => a = b && pfxB p q

/-- Two segment paths are incomparable: neither is a prefix of the other
(in particular they are distinct). -/
def incompB (p q : List GoStr) : Bool := !pfxB p q && !pfxB q p

theorem pfxB_refl (p : List GoStr) : pfxB p p = true := by
  induction p with
  | nil => rfl
  | cons a p ih => simp [pfxB, ih]

theorem incompB_irrefl (p : List GoStr) : incompB p p = false := by
  simp [incompB, pfxB_refl]

theorem incompB_symm (p q : List GoStr) : incompB p q = incompB q p := by
  simp [incompB, Bool.and_comm]

theorem pfxB_cons (a b : GoStr) (p q : List GoStr) :
    pfxB (a :: p) (b :: q) = (a = b && pfxB p q) := rfl

theorem incompB_cons_same (a : GoStr) (p q : List GoStr) :
    incompB (a :: p) (a :: q) = incompB p q := by
  simp [incompB, pfxB_cons]

theorem incompB_cons_ne (a b : GoStr) (p q : List GoStr) (h : a ≠ b) :
    incompB (a :: p) (b :: q) = true := by
  have h' : ¬ b = a := fun hb => h hb.symm
  simp [incompB, pfxB_cons, h, h']

theorem pfxB_append (p r : List GoStr) : pfxB p (p ++ r) = true := by
  induction p with
  | nil => rfl
  | cons a p ih => simp [pfxB, ih]

/-! ## Structure of the flatten emission -/

/-- Prepend `ks` to the path of an emitted entry. -/
def shiftP (ks : List GoStr) (pv : List GoStr × Prim) : List GoStr × Prim :=
  (ks ++ pv.1, pv.2)

theorem flattenEntries_shift :
    ∀ (t : Tree) (_keys : List GoStr), ∀ ks,
      flattenEntries t ks = (flattenEntries t []).map (shiftP ks) :=
  flattenEntries.induct
    (fun k v _ => ∀ ks, flattenVal k v ks = (flattenVal k v []).map (shiftP ks))
    (fun t _ => ∀ ks, flattenEntries t ks = (flattenEntries t []).map (shiftP ks))
    (by intro k _ p ks; simp [flattenVal, shiftP])
    (by
      intro k _ sub ih ks
      show flattenEntries sub (ks ++ [k]) = (flattenEntries sub ([] ++ [k])).map (shiftP ks)
      rw [ih (ks ++ [k]), ih ([] ++ [k])]
      simp [shiftP, Function.comp_def])
    (by intro _ ks; simp [flattenEntries])
    (by
      intro _ k v rest ih1 ih2 ks
      show flattenVal k v ks ++ flattenEntries rest ks =
        ((flattenVal k v [] ++ flattenEntries rest []).map (shiftP ks))
      rw [ih1 ks, ih2 ks, List.map_append])

theorem flattenVal_shift (k : GoStr) (v : Val) (ks : List GoStr) :
    flattenVal k v ks = (flattenVal k v []).map (shiftP ks) := by
  cases v with
  | prim p => simp [flattenVal, shiftP]
  | node sub =>
    show flattenEntries sub (ks ++ [k]) = (flattenEntries sub ([] ++ [k])).map (shiftP ks)
    rw [flattenEntries_shift sub [] (ks ++ [k]), flattenEntries_shift sub [] ([] ++ [k])]
    simp [shiftP, Function.comp_def]

theorem flattenVal_path_head (k : GoStr) (v : Val) (pv : List GoStr × Prim)
    (h : pv ∈ flattenVal k v []) : ∃ p', pv.1 = k :: p' := by
  cases v with
  | prim p =>
    simp only [flattenVal, List.mem_singleton] at h
    exact ⟨[], by simp [h]⟩
  | node sub =>
    have : flattenVal k (.node sub) [] = (flattenEntries sub []).map (shiftP [k]) := by
      show flattenEntries sub ([] ++ [k]) = _
      rw [flattenEntries_shift sub [] ([] ++ [k])]
      rfl
    rw [this] at h
    obtain ⟨qv, _, hq⟩ := List.mem_map.mp h
    exact ⟨qv.1, by simp [← hq, shiftP]⟩

theorem flattenEntries_mem_key (t : Tree) (pv : List GoStr × Prim)
    (h : pv ∈ flattenEntries t []) :
    ∃ k ∈ t.map Prod.fst, ∃ p', pv.1 = k :: p' := by
  induction t with
  | nil => simp [flattenEntries] at h
  | cons e rest ih =>
    obtain ⟨k, v⟩ := e
    rcases List.mem_append.mp h with h | h
    · obtain ⟨p', hp⟩ := flattenVal_path_head k v pv h
      exact ⟨k, List.map_cons Prod.fst (k, v) rest ▸ List.mem_cons_self _ _, p', hp⟩
    · obtain ⟨k', hk', p', hp⟩ := ih h
      exact ⟨k', List.map_cons Prod.fst (k, v) rest ▸ List.mem_cons_of_mem _ hk', p', hp⟩

theorem flattenEntries_setk_none (t : Tree) (k : GoStr) (w : Val) (ks : List GoStr)
    (h : getk t k = none) :
    flattenEntries (setk t k w) ks = flattenEntries t ks ++ flattenVal k w ks := by
  induction t with
  | nil => simp [setk, flattenEntries]
  | cons e rest ih =>
    obtain ⟨k', v⟩ := e
    by_cases hk : k' = k
    · simp [getk, hk] at h
    · simp only [getk, if_neg hk] at h
      simp only [setk, if_neg hk, flattenEntries, ih h, List.append_assoc]

theorem flattenEntries_setk_some (t : Tree) (k : GoStr) (vOld w : Val)
    (ks : List GoStr) (h : getk t k = some vOld) :
    ∃ A B, flattenEntries t ks = A ++ flattenVal k vOld ks ++ B ∧
      flattenEntries (setk t k w) ks = A ++ flattenVal k w ks ++ B := by
  induction t with
  | nil => simp [getk] at h
  | cons e rest ih =>
    obtain ⟨k', v⟩ := e
    by_cases hk : k' = k
    · subst hk
      simp [getk] at h
      subst h
      refine ⟨[], flattenEntries rest ks, by simp [flattenEntries], ?_⟩
      simp [setk, flattenEntries]
    · simp only [getk, if_neg hk] at h
      obtain ⟨A, B, h1, h2⟩ := ih h
      refine ⟨flattenVal k' v ks ++ A, B, ?_, ?_⟩
      · simp [flattenEntries, h1]
      · simp [setk, if_neg hk, flattenEntries, h2]

theorem flattenVal_sub_of_getk (t : Tree) (k : GoStr) (v : Val) (ks : List GoStr)
    (h : getk t k = some v) (pv : List GoStr × Prim)
    (hmem : pv ∈ flattenVal k v ks) : pv ∈ flattenEntries t ks := by
  obtain ⟨A, B, h1, _⟩ := flattenEntries_setk_some t k v v ks h
  rw [h1]
  simp [hmem]

theorem flattenVal_node_emit (k : GoStr) (sub : Tree) :
    flattenVal k (.node sub) [] = (flattenEntries sub []).map (shiftP [k]) := by
  show flattenEntries sub ([] ++ [k]) = _
  rw [flattenEntries_shift sub [] ([] ++ [k])]
  rfl

/-- Core insertion lemma: if the path `p` is incomparable with every leaf
path already emitted by the tree, the descent of `unflatten`'s inner loop
never hits the failing type assertion, and the new tree emits exactly the
old leaves plus the new one. -/
theorem insertPath_spec (p : List GoStr) :
    ∀ (t : Tree) (v : Prim), p ≠ [] →
    (∀ pv ∈ flattenEntries t [], incompB p pv.1 = true) →
    ∃ t', insertPath t p v = some t' ∧
      List.Perm (flattenEntries t' []) ((p, v) :: flattenEntries t []) := by
  induction p with
  | nil => intro t v h _; exact absurd rfl h
  | cons k rest ih =>
    intro t v _ hinc
    cases rest with
    | nil =>
      cases hg : getk t k with
      | none =>
        refine ⟨setk t k (.prim v), rfl, ?_⟩
        rw [flattenEntries_setk_none t k (.prim v) [] hg]
        have : flattenVal k (.prim v) [] = [([k], v)] := rfl
        rw [this]
        exact List.perm_append_singleton _ _
      | some vOld =>
        have hemp : flattenVal k vOld [] = [] := by
          cases hE : flattenVal k vOld [] with
          | nil => rfl
          | cons pv r =>
            have hpv : pv ∈ flattenVal k vOld [] := by rw [hE]; exact List.mem_cons_self _ _
            have hmem : pv ∈ flattenEntries t [] :=
              flattenVal_sub_of_getk t k vOld [] hg pv hpv
            obtain ⟨p', hp⟩ := flattenVal_path_head k vOld pv hpv
            have hi := hinc pv hmem
            rw [hp] at hi
            simp [incompB, pfxB] at hi
        obtain ⟨A, B, h1, h2⟩ := flattenEntries_setk_some t k vOld (.prim v) [] hg
        rw [hemp, List.append_nil] at h1
        refine ⟨setk t k (.prim v), rfl, ?_⟩
        rw [h2, h1]
        have hv : flattenVal k (.prim v) [] = [([k], v)] := rfl
        rw [hv]
        simp only [List.append_assoc, List.singleton_append]
        exact List.perm_middle
    | cons r rs =>
      cases hg : getk t k with
      | none =>
        obtain ⟨sub', hins, hperm⟩ := ih [] v (by simp) (by intro pv h; simp [flattenEntries] at h)
        refine ⟨setk t k (.node sub'), ?_, ?_⟩
        · simp only [insertPath, hg, hins]
        · rw [flattenEntries_setk_none t k (.node sub') [] hg, flattenVal_node_emit]
          have h1 : flattenEntries ([] : Tree) [] = ([] : List (List GoStr × Prim)) := rfl
          rw [h1] at hperm
          have hm := hperm.map (shiftP [k])
          have hh : (shiftP [k]) (r :: rs, v) = (k :: r :: rs, v) := rfl
          rw [List.map_cons, hh, List.map_nil] at hm
          exact (hm.append_left _).trans (List.perm_append_singleton _ _)
      | some vOld =>
        cases vOld with
        | prim q =>
          exfalso
          have hpv : (([k], q)) ∈ flattenVal k (.prim q) [] := by
            simp [flattenVal]
          have hmem := flattenVal_sub_of_getk t k (.prim q) [] hg _ hpv
          have hi := hinc _ hmem
          simp [incompB, pfxB] at hi
        | node sub =>
          have hsub : ∀ qv ∈ flattenEntries sub [], incompB (r :: rs) qv.1 = true := by
            intro qv hqv
            have hmm : shiftP [k] qv ∈ flattenVal k (.node sub) [] := by
              rw [flattenVal_node_emit]
              exact List.mem_map.mpr ⟨qv, hqv, rfl⟩
            have hmem := flattenVal_sub_of_getk t k (.node sub) [] hg _ hmm
            have hi := hinc _ hmem
            have hsh : (shiftP [k] qv).1 = k :: qv.1 := rfl
            rw [hsh, incompB_cons_same] at hi
            exact hi
          obtain ⟨sub', hins, hperm⟩ := ih sub v (by simp) hsub
          obtain ⟨A, B, h1, h2⟩ :=
            flattenEntries_setk_some t k (.node sub) (.node sub') [] hg
          refine ⟨setk t k (.node sub'), ?_, ?_⟩
          · simp only [insertPath, hg, hins]
          · rw [h2, h1, flattenVal_node_emit, flattenVal_node_emit]
            have hm := hperm.map (shiftP [k])
            have hh : (shiftP [k]) (r :: rs, v) = (k :: r :: rs, v) := rfl
            rw [List.map_cons, hh] at hm
            have hstep :
                List.Perm (A ++ (flattenEntries sub' []).map (shiftP [k]) ++ B)
                  (A ++ ((k :: r :: rs, v) ::
                    (flattenEntries sub []).map (shiftP [k])) ++ B) :=
              (hm.append_left A).append_right B
            have hmid :
                List.Perm
                  (A ++ ((k :: r :: rs, v) ::
                    (flattenEntries sub []).map (shiftP [k])) ++ B)
                  ((k :: r :: rs, v) ::
                    (A ++ (flattenEntries sub []).map (shiftP [k]) ++ B)) := by
              simp only [List.append_assoc, List.cons_append]
              exact List.perm_middle
            exact hstep.trans hmid

/-- The `range` loop of `unflatten`: processing a batch of flat entries
whose paths are pairwise incomparable, and incomparable with every leaf
path of the starting tree, succeeds and emits exactly the new leaves plus
the old ones. -/
theorem unflattenFrom_spec (fm : List (GoStr × Prim)) :
    ∀ (t : Tree),
    (fm.map (fun kv => splitDot kv.1)).Pairwise (fun p q => incompB p q = true) →
    (∀ kv ∈ fm, ∀ pv ∈ flattenEntries t [], incompB (splitDot kv.1) pv.1 = true) →
    ∃ T, unflattenFrom t fm = some T ∧
      List.Perm (flattenEntries T [])
        (fm.map (fun kv => (splitDot kv.1, kv.2)) ++ flattenEntries t []) := by
  induction fm with
  | nil =>
    intro t _ _
    exact ⟨t, rfl, by simp⟩
  | cons kv rest ih =>
    obtain ⟨k, v⟩ := kv
    intro t hpw hcross
    obtain ⟨t', hins, hperm⟩ := insertPath_spec (splitDot k) t v (splitDot_ne_nil k)
      (fun pv hpv => hcross (k, v) (List.mem_cons_self _ _) pv hpv)
    rw [List.map_cons, List.pairwise_cons] at hpw
    have hcross' : ∀ kv' ∈ rest, ∀ pv ∈ flattenEntries t' [],
        incompB (splitDot kv'.1) pv.1 = true := by
      intro kv' hkv' pv hpv
      have hpv' : pv ∈ (splitDot k, v) :: flattenEntries t [] := hperm.subset hpv
      rcases List.mem_cons.mp hpv' with he | he
      · have hh := hpw.1 (splitDot kv'.1)
          (List.mem_map.mpr ⟨kv', hkv', rfl⟩)
        rw [he]
        rw [incompB_symm]
        exact hh
      · exact hcross kv' (List.mem_cons_of_mem _ hkv') pv he
    obtain ⟨T, hun, hper2⟩ := ih t' hpw.2 hcross'
    refine ⟨T, ?_, ?_⟩
    · simp only [unflattenFrom, hins, hun]
    · have s1 : List.Perm (flattenEntries T [])
          (rest.map (fun kv => (splitDot kv.1, kv.2)) ++
            ((splitDot k, v) :: flattenEntries t [])) :=
        hper2.trans (hperm.append_left _)
      have s2 := s1.trans List.perm_middle
      simpa using s2

/-- `unflatten` over a flat map with pairwise incomparable key paths
succeeds, and the resulting tree's leaves are exactly the flat entries. -/
theorem unflatten_spec (fm : FlatMap)
    (hpw : (fm.map (fun kv => splitDot kv.1)).Pairwise (fun p q => incompB p q = true)) :
    ∃ T, unflatten fm = some T ∧
      List.Perm (flattenEntries T []) (fm.map (fun kv => (splitDot kv.1, kv.2))) := by
  obtain ⟨T, h1, h2⟩ := unflattenFrom_spec fm [] hpw
    (by intro kv _ pv hpv; simp [flattenEntries] at hpv)
  exact ⟨T, h1, by simpa [flattenEntries] using h2⟩

/-! ## Reading a flat map built by successive writes -/

theorem foldSet_getk_nodup (l : List (GoStr × Prim)) :
    ∀ (init : FlatMap) (q : GoStr), keysNodup l →
    getk (foldSet init l) q =
      match getk l q with
      | some v => some v
      | none => getk init q := by
  induction l with
  | nil => intro init q _; simp [foldSet, getk]
  | cons kv rest ih =>
    obtain ⟨k, v⟩ := kv
    intro init q hnd
    simp only [keysNodup, List.map_cons, List.nodup_cons] at hnd
    have hstep : foldSet init ((k, v) :: rest) = foldSet (setk init k v) rest := rfl
    rw [hstep, ih (setk init k v) q hnd.2]
    by_cases hq : k = q
    · subst hq
      have hnone : getk rest k = none :=
        getk_eq_none_of_not_mem rest k hnd.1
      rw [hnone]
      simp [getk, getk_setk_self]
    · have hgk : getk ((k, v) :: rest) q = getk rest q := by simp [getk, hq]
      rw [hgk]
      cases getk rest q with
      | some w => rfl
      | none => simp [getk_setk_ne init k q v hq]

theorem foldSet_getk_isSome (l : List (GoStr × Prim)) :
    ∀ (init : FlatMap) (q : GoStr), (getk init q).isSome →
    (getk (foldSet init l) q).isSome := by
  induction l with
  | nil => intro init q h; exact h
  | cons kv rest ih =>
    obtain ⟨k, v⟩ := kv
    intro init q h
    have hstep : foldSet init ((k, v) :: rest) = foldSet (setk init k v) rest := rfl
    rw [hstep]
    refine ih (setk init k v) q ?_
    by_cases hq : k = q
    · subst hq
      simp [getk_setk_self]
    · rw [getk_setk_ne init k q v hq]
      exact h

theorem getk_perm_nodup {α : Type} (l l' : List (GoStr × α))
    (hp : List.Perm l l') (hnd : keysNodup l) (q : GoStr) :
    getk l q = getk l' q := by
  have hnd' : keysNodup l' := (hnd.perm (hp.map Prod.fst) :)
  cases hg : getk l q with
  | some v =>
    exact (getk_of_mem_nodup l' q v (hp.subset (mem_of_getk_eq_some l q v hg)) hnd').symm
  | none =>
    cases hg' : getk l' q with
    | none => rfl
    | some v =>
      have : (q, v) ∈ l := hp.symm.subset (mem_of_getk_eq_some l' q v hg')
      rw [getk_of_mem_nodup l q v this hnd] at hg
      cases hg

theorem map_joinsplit_id (fm : FlatMap) :
    fm.map (fun kv => (joinDot (splitDot kv.1), kv.2)) = fm := by
  induction fm with
  | nil => rfl
  | cons kv rest ih => simp [joinDot_splitDot, ih]

theorem paths_pairwise_nodup (fm : FlatMap)
    (hpw : (fm.map (fun kv => splitDot kv.1)).Pairwise (fun p q => incompB p q = true)) :
    keysNodup fm := by
  have h0 : (fm.map (fun kv => splitDot kv.1)).Pairwise (fun a b => a ≠ b) := by
    refine List.Pairwise.imp ?_ hpw
    intro a b hab hne
    subst hne
    rw [incompB_irrefl] at hab
    cases hab
  have h1 : (fm.map (fun kv => splitDot kv.1)).Nodup := h0
  have h2 : fm.map (fun kv => splitDot kv.1) =
      (fm.map Prod.fst).map splitDot := by
    simp [List.map_map, Function.comp_def]
  rw [h2] at h1
  exact h1.of_map splitDot

/-! ## Claim C1 -/

/-- C1: For every flat map (unique keys) in which no key's dot-split
segment path is a strict prefix of another key's segment path — i.e. the
paths are pairwise incomparable — flattening the result of unflattening
that map (with the dot joiner/slicer) succeeds and returns a flat map
extensionally equal to the original: `Flatten(Unflatten(fm)) == fm`. -/
theorem C1_flatten_unflatten_roundtrip (fm : FlatMap)
    (hpw : (fm.map (fun kv => splitDot kv.1)).Pairwise
      (fun p q => incompB p q = true)) :
    ∃ T, unflatten fm = some T ∧ ∀ q, getk (flatten T) q = getk fm q := by
  obtain ⟨T, hT, hperm⟩ := unflatten_spec fm hpw
  refine ⟨T, hT, ?_⟩
  intro q
  have hmap := hperm.map (fun pv => (joinDot pv.1, pv.2))
  rw [List.map_map] at hmap
  have he : fm.map ((fun pv => (joinDot pv.1, pv.2)) ∘
      (fun kv => (splitDot kv.1, kv.2))) = fm := by
    have h := map_joinsplit_id fm
    simpa [Function.comp_def] using h
  rw [he] at hmap
  have hnd : keysNodup fm := paths_pairwise_nodup fm hpw
  have hndL : keysNodup ((flattenEntries T []).map (fun pv => (joinDot pv.1, pv.2))) := by
    have h' : ((fm.map Prod.fst)).Nodup := hnd
    exact (h'.perm ((hmap.symm).map Prod.fst) :)
  have h1 : getk (flatten T) q =
      getk ((flattenEntries T []).map (fun pv => (joinDot pv.1, pv.2))) q := by
    show getk (foldSet [] ((flattenEntries T []).map (fun pv => (joinDot pv.1, pv.2)))) q = _
    rw [foldSet_getk_nodup _ [] q hndL]
    cases getk ((flattenEntries T []).map (fun pv => (joinDot pv.1, pv.2))) q <;> rfl
  rw [h1]
  exact getk_perm_nodup _ fm hmap hndL q

/-- Witness for C1 at a concrete flat map with keys `a.b`, `a.c`, `d`. -/
theorem C1_flatten_unflatten_roundtrip_witness :
    (([(gs "a.b", Prim.int 1), (gs "a.c", Prim.str (gs "x")),
       (gs "d", Prim.bool true)].map (fun kv => splitDot kv.1)).Pairwise
      (fun p q => incompB p q = true)) ∧
    (∃ T, unflatten [(gs "a.b", Prim.int 1), (gs "a.c", Prim.str (gs "x")),
       (gs "d", Prim.bool true)] = some T ∧
      ∀ q, getk (flatten T) q =
        getk [(gs "a.b", Prim.int 1), (gs "a.c", Prim.str (gs "x")),
          (gs "d", Prim.bool true)] q) :=
  ⟨by decide, C1_flatten_unflatten_roundtrip _ (by decide)⟩

/-! ## Claim C10 -/

/-- C10: For every flat map with pairwise incomparable key paths,
`unflatten` is total for every processing order of the entries: the type
assertion on intermediate nodes never fails.  Without the precondition the
assertion can fail for some processing orders: with keys `a` and `a.b`,
processing `a` first panics at `a.b` (second conjunct). -/
theorem C10_unflatten_total (fm l : FlatMap)
    (hpl : List.Perm l fm)
    (hpw : (fm.map (fun kv => splitDot kv.1)).Pairwise
      (fun p q => incompB p q = true)) :
    (unflatten l).isSome = true ∧
      unflatten [(gs "a", Prim.int 1), (gs "a.b", Prim.int 2)] = none := by
  constructor
  · have hpw' : (l.map (fun kv => splitDot kv.1)).Pairwise
        (fun p q => incompB p q = true) :=
      ((hpl.map _).pairwise_iff
        (fun hab => by rw [incompB_symm]; exact hab)).mpr hpw
    obtain ⟨T, hT, _⟩ := unflatten_spec l hpw'
    rw [hT]
    rfl
  · rfl

/-- Witness for C10 at a two-key flat map processed in reversed order. -/
theorem C10_unflatten_total_witness :
    List.Perm [(gs "z", Prim.int 2), (gs "x.y", Prim.int 1)]
      [(gs "x.y", Prim.int 1), (gs "z", Prim.int 2)] ∧
    (([(gs "x.y", Prim.int 1), (gs "z", Prim.int 2)].map
        (fun kv => splitDot kv.1)).Pairwise (fun p q => incompB p q = true)) ∧
    ((unflatten [(gs "z", Prim.int 2), (gs "x.y", Prim.int 1)]).isSome = true ∧
      unflatten [(gs "a", Prim.int 1), (gs "a.b", Prim.int 2)] = none) :=
  ⟨by decide, by decide,
    C10_unflatten_total [(gs "x.y", Prim.int 1), (gs "z", Prim.int 2)]
      [(gs "z", Prim.int 2), (gs "x.y", Prim.int 1)] (by decide) (by decide)⟩

/-! ## Traversal order over sibling keys (claim C9)

Go map iteration order is unspecified.  Two association lists represent
the same hierarchical map under different traversal orders when they are
related by `PVal` below: permutation of siblings at every level. -/

/-- `PVal a b`: the values `a` and `b` are the same Go value, with the
entries of every nested mapping possibly enumerated in a different
order. -/
inductive PVal : Val → Val → Prop where
  | prim (p : Prim) : PVal (.prim p) (.prim p)
  | nil : PVal (.node []) (.node [])
  | cons (k : GoStr) {v v' : Val} {t t' : Tree} :
      PVal v v' → PVal (.node t) (.node t') →
      PVal (.node ((k, v) :: t)) (.node ((k, v') :: t'))
  | swap (k₁ k₂ : GoStr) (v₁ v₂ : Val) (t : Tree) :
      PVal (.node ((k₁, v₁) :: (k₂, v₂) :: t)) (.node ((k₂, v₂) :: (k₁, v₁) :: t))
  | trans {a b c : Val} : PVal a b → PVal b c → PVal a c

/-- The emission of a single value at path `P` (helper for relating
`flattenVal` and `flattenEntries`). -/
def emitVal (v : Val) (P : List GoStr) : List (List GoStr × Prim) :=
  match v with
  | .prim p => [(P, p)]
  | .node t => flattenEntries t P

theorem flattenVal_eq_emit (k : GoStr) (v : Val) (ks : List GoStr) :
    flattenVal k v ks = emitVal v (ks ++ [k]) := by
  cases v <;> rfl

theorem PVal_emit_perm {a b : Val} (h : PVal a b) :
    ∀ P, List.Perm (emitVal a P) (emitVal b P) := by
  induction h with
  | prim p => intro P; exact List.Perm.refl _
  | nil => intro P; exact List.Perm.refl _
  | cons k hv ht ihv iht =>
    intro P
    show List.Perm (flattenEntries ((k, _) :: _) P) (flattenEntries ((k, _) :: _) P)
    rw [flattenEntries, flattenEntries, flattenVal_eq_emit, flattenVal_eq_emit]
    exact (ihv (P ++ [k])).append (iht P)
  | swap k₁ k₂ v₁ v₂ t =>
    intro P
    show List.Perm (flattenEntries ((k₁, v₁) :: (k₂, v₂) :: t) P)
      (flattenEntries ((k₂, v₂) :: (k₁, v₁) :: t) P)
    rw [flattenEntries, flattenEntries, flattenEntries, flattenEntries]
    rw [← List.append_assoc, ← List.append_assoc]
    exact List.perm_append_comm.append_right _
  | trans h1 h2 ih1 ih2 =>
    intro P
    exact (ih1 P).trans (ih2 P)

theorem PVal_entries_perm {t t' : Tree} (h : PVal (.node t) (.node t')) :
    List.Perm (flattenEntries t []) (flattenEntries t' []) :=
  PVal_emit_perm h []

/-! ## Well-formedness of hierarchical maps as Bool predicates -/

mutual
/-- Sibling keys are unique at every level of the value (inherent in a
Go map). -/
def valNodupB : Val → Bool
  | .prim _ => true
  | .node t => entriesNodupB t

def entriesNodupB : List (GoStr × Val) → Bool
  | [] => true
  | (k, v) :: rest => (getk rest k).isNone && valNodupB v && entriesNodupB rest
end

mutual
/-- No key at any level contains the joiner character. -/
def valDotFreeB : Val → Bool
  | .prim _ => true
  | .node t => entriesDotFreeB t

def entriesDotFreeB : List (GoStr × Val) → Bool
  | [] => true
  | (k, v) :: rest => dotFreeSeg k && valDotFreeB v && entriesDotFreeB rest
end

theorem getk_isNone_not_mem {α : Type} (l : List (GoStr × α)) (k : GoStr)
    (h : (getk l k).isNone = true) : k ∉ l.map Prod.fst := by
  intro hmem
  rw [Option.isNone_iff_eq_none] at h
  have := (getk_isSome_iff_mem l k).mpr hmem
  rw [h] at this
  cases this

/-- The leaf paths of a tree with unique sibling keys are pairwise
incomparable. -/
theorem flattenEntries_pairwise_incomp :
    ∀ (t : Tree) (_keys : List GoStr), entriesNodupB t = true →
      (flattenEntries t []).Pairwise (fun pv qv => incompB pv.1 qv.1 = true) :=
  flattenEntries.induct
    (fun k v _ => valNodupB v = true →
      (flattenVal k v []).Pairwise (fun pv qv => incompB pv.1 qv.1 = true))
    (fun t _ => entriesNodupB t = true →
      (flattenEntries t []).Pairwise (fun pv qv => incompB pv.1 qv.1 = true))
    (by intro k _ p _; simp [flattenVal])
    (by
      intro k _ sub ih hnd
      rw [flattenVal_node_emit]
      rw [List.pairwise_map]
      have hsub := ih hnd
      refine hsub.imp ?_
      intro a b hab
      show incompB (k :: a.1) (k :: b.1) = true
      rw [incompB_cons_same]
      exact hab)
    (by intro _ _; simp [flattenEntries])
    (by
      intro _ k v rest ih1 ih2 hnd
      simp only [entriesNodupB, Bool.and_eq_true] at hnd
      rw [flattenEntries, List.pairwise_append]
      refine ⟨ih1 hnd.1.2, ih2 hnd.2, ?_⟩
      intro a ha b hb
      obtain ⟨p', hp⟩ := flattenVal_path_head k v a ha
      obtain ⟨k', hk', q', hq⟩ := flattenEntries_mem_key rest b hb
      have hne : k ≠ k' := by
        intro he
        exact getk_isNone_not_mem rest k hnd.1.1 (he ▸ hk')
      rw [hp, hq]
      exact incompB_cons_ne k k' p' q' hne)

/-- Every segment of every leaf path of a dot-free tree is dot-free. -/
theorem flattenEntries_dotFree :
    ∀ (t : Tree) (_keys : List GoStr), entriesDotFreeB t = true →
      ∀ pv ∈ flattenEntries t [], ∀ s ∈ pv.1, dotFreeSeg s = true :=
  flattenEntries.induct
    (fun k v _ => dotFreeSeg k = true → valDotFreeB v = true →
      ∀ pv ∈ flattenVal k v [], ∀ s ∈ pv.1, dotFreeSeg s = true)
    (fun t _ => entriesDotFreeB t = true →
      ∀ pv ∈ flattenEntries t [], ∀ s ∈ pv.1, dotFreeSeg s = true)
    (by
      intro k _ p hk _ pv hpv s hs
      simp only [flattenVal, List.nil_append, List.mem_singleton] at hpv
      rw [hpv] at hs
      simp only [List.mem_singleton] at hs
      rw [hs]
      exact hk)
    (by
      intro k _ sub ih hk hdf pv hpv s hs
      rw [flattenVal_node_emit] at hpv
      obtain ⟨qv, hqv, hq⟩ := List.mem_map.mp hpv
      rw [← hq] at hs
      have hs' : s ∈ k :: qv.1 := hs
      rcases List.mem_cons.mp hs' with he | he
      · rw [he]; exact hk
      · exact ih hdf qv hqv s he)
    (by intro _ _ pv hpv; simp [flattenEntries] at hpv)
    (by
      intro _ k v rest ih1 ih2 hdf pv hpv s hs
      simp only [entriesDotFreeB, Bool.and_eq_true] at hdf
      rcases List.mem_append.mp hpv with h | h
      · exact ih1 hdf.1.1 hdf.1.2 pv h s hs
      · exact ih2 hdf.2 pv h s hs)

/-- Distinct incomparable dot-free paths join to distinct flat keys:
the joined keys of the leaf paths are unique. -/
theorem flattenEntries_join_nodup (t : Tree)
    (hnd : entriesNodupB t = true) (hdf : entriesDotFreeB t = true) :
    keysNodup ((flattenEntries t []).map (fun pv => (joinDot pv.1, pv.2))) := by
  have hpw := flattenEntries_pairwise_incomp t [] hnd
  have hdf' := flattenEntries_dotFree t [] hdf
  show (((flattenEntries t []).map (fun pv => (joinDot pv.1, pv.2))).map Prod.fst).Nodup
  rw [List.map_map]
  have : ((flattenEntries t []).map
      (Prod.fst ∘ fun pv => (joinDot pv.1, pv.2))).Pairwise (fun a b => a ≠ b) := by
    rw [List.pairwise_map]
    refine List.Pairwise.imp_of_mem ?_ hpw
    intro a b ha hb hab he
    obtain ⟨pa, hpa⟩ := flattenEntries_mem_key t a ha
    obtain ⟨pb, hpb⟩ := flattenEntries_mem_key t b hb
    have hna : a.1 ≠ [] := by rw [hpa.2.choose_spec]; simp
    have hnb : b.1 ≠ [] := by rw [hpb.2.choose_spec]; simp
    have hsa : splitDot (joinDot a.1) = a.1 :=
      splitDot_joinDot a.1 hna (fun s hs => hdf' a ha s hs)
    have hsb : splitDot (joinDot b.1) = b.1 :=
      splitDot_joinDot b.1 hnb (fun s hs => hdf' b hb s hs)
    have he' : joinDot a.1 = joinDot b.1 := he
    have : a.1 = b.1 := by rw [← hsa, ← hsb, he']
    rw [this, incompB_irrefl] at hab
    cases hab
  exact this

/-! ## Claim C9 -/

/-- C9 counterexample: for a hierarchical map with sibling keys `a` (a
mapping containing `b`) and `a.b` (a leaf), the two flat keys collide, and
the traversal order decides which value wins: the two sibling orders give
different flat maps.  This refutes the claim for arbitrary hierarchical
maps (keys containing the joiner break it). -/
theorem C9_counterexample :
    PVal (.node [(gs "a", Val.node [(gs "b", Val.prim (Prim.int 1))]),
                 (gs "a.b", Val.prim (Prim.int 2))])
         (.node [(gs "a.b", Val.prim (Prim.int 2)),
                 (gs "a", Val.node [(gs "b", Val.prim (Prim.int 1))])]) ∧
    ¬ (∀ q, getk (flatten [(gs "a", Val.node [(gs "b", Val.prim (Prim.int 1))]),
                 (gs "a.b", Val.prim (Prim.int 2))]) q =
            getk (flatten [(gs "a.b", Val.prim (Prim.int 2)),
                 (gs "a", Val.node [(gs "b", Val.prim (Prim.int 1))])]) q) :=
  ⟨PVal.swap _ _ _ _ _, fun h => absurd (h (gs "a.b")) (by decide)⟩

/-- C9 (amended): for every hierarchical map with unique sibling keys in
which no key at any level contains the joiner character, the flat map
produced by `flatten` is extensionally the same for any two traversal
orders of the sibling entries. -/
theorem C9_flatten_order_invariant (t t' : Tree)
    (hperm : PVal (.node t) (.node t'))
    (hnd : entriesNodupB t = true) (hdf : entriesDotFreeB t = true) :
    ∀ q, getk (flatten t) q = getk (flatten t') q := by
  intro q
  have hpermE := PVal_entries_perm hperm
  have hmap := hpermE.map (fun pv => (joinDot pv.1, pv.2))
  have hndL := flattenEntries_join_nodup t hnd hdf
  have hndL' : keysNodup ((flattenEntries t' []).map
      (fun pv => (joinDot pv.1, pv.2))) := by
    have h' : (((flattenEntries t []).map
        (fun pv => (joinDot pv.1, pv.2))).map Prod.fst).Nodup := hndL
    exact (h'.perm (hmap.map Prod.fst) :)
  have h1 : getk (flatten t) q =
      getk ((flattenEntries t []).map (fun pv => (joinDot pv.1, pv.2))) q := by
    show getk (foldSet [] _) q = _
    rw [foldSet_getk_nodup _ [] q hndL]
    cases getk ((flattenEntries t []).map (fun pv => (joinDot pv.1, pv.2))) q <;> rfl
  have h2 : getk (flatten t') q =
      getk ((flattenEntries t' []).map (fun pv => (joinDot pv.1, pv.2))) q := by
    show getk (foldSet [] _) q = _
    rw [foldSet_getk_nodup _ [] q hndL']
    cases getk ((flattenEntries t' []).map (fun pv => (joinDot pv.1, pv.2))) q <;> rfl
  rw [h1, h2]
  exact getk_perm_nodup _ _ hmap hndL q

/-- Witness for the amended C9 at a concrete two-sibling tree. -/
theorem C9_flatten_order_invariant_witness :
    PVal (.node [(gs "a", Val.node [(gs "b", Val.prim (Prim.int 1))]),
                 (gs "c", Val.prim (Prim.int 2))])
         (.node [(gs "c", Val.prim (Prim.int 2)),
                 (gs "a", Val.node [(gs "b", Val.prim (Prim.int 1))])]) ∧
    entriesNodupB [(gs "a", Val.node [(gs "b", Val.prim (Prim.int 1))]),
                   (gs "c", Val.prim (Prim.int 2))] = true ∧
    entriesDotFreeB [(gs "a", Val.node [(gs "b", Val.prim (Prim.int 1))]),
                   (gs "c", Val.prim (Prim.int 2))] = true ∧
    ∀ q, getk (flatten [(gs "a", Val.node [(gs "b", Val.prim (Prim.int 1))]),
                   (gs "c", Val.prim (Prim.int 2))]) q =
         getk (flatten [(gs "c", Val.prim (Prim.int 2)),
                   (gs "a", Val.node [(gs "b", Val.prim (Prim.int 1))])]) q :=
  ⟨PVal.swap _ _ _ _ _, by decide, by decide,
    C9_flatten_order_invariant
      [(gs "a", Val.node [(gs "b", Val.prim (Prim.int 1))]),
       (gs "c", Val.prim (Prim.int 2))]
      [(gs "c", Val.prim (Prim.int 2)),
       (gs "a", Val.node [(gs "b", Val.prim (Prim.int 1))])]
      (PVal.swap _ _ _ _ _) (by decide) (by decide)⟩

/-! ## Extensional equality of hierarchical maps (Go reflect.DeepEqual) -/

/-- Every key of `u` is present in `t`. -/
def keysIncl (u t : List (GoStr × Val)) : Bool :=
  u.all (fun kv => (getk t kv.1).isSome)

mutual
/-- Deep equality of two Go values: leaves compare by value, mappings
extensionally (same keys, deeply equal values), ignoring entry order. -/
def eqVal : Val → Val → Bool
  | .prim p, .prim q => p == q
  | .node t, .node u => eqEntries t u && keysIncl u t
  | _, _ => false

def eqEntries : List (GoStr × Val) → List (GoStr × Val) → Bool
  | [], _ => true
  | (k, v) :: rest, u =>
    (match getk u k with
     | some w => eqVal v w
     | none => false) && eqEntries rest u
end

/-- Deep extensional equality of two hierarchical maps. -/
def eqTree (t u : Tree) : Bool := eqEntries t u && keysIncl u t

mutual
/-- No nested mapping is empty (the root may be). -/
def valNoEmptyB : Val → Bool
  | .prim _ => true
  | .node t => !t.isEmpty && entriesNoEmptyB t

def entriesNoEmptyB : List (GoStr × Val) → Bool
  | [] => true
  | (_, v) :: rest => valNoEmptyB v && entriesNoEmptyB rest
end

/-! ## Leaf lookup along a segment path -/

mutual
/-- Look up the leaf at segment path `p` of the tree. -/
def getLeaf : Tree → List GoStr → Option Prim
  | _, [] => none
  | t, k :: rest =>
    match getk t k with
    | some v => getLeafVal v rest
    | none => none
termination_by _t p => 2 * p.length

/-- Continue a leaf lookup below a value. -/
def getLeafVal : Val → List GoStr → Option Prim
  | .prim p, [] => some p
  | .prim _, _ :: _ => none
  | .node _, [] => none
  | .node sub, k :: rest => getLeaf sub (k :: rest)
termination_by _v p => 2 * p.length + 1
end

/-! ## Per-entry access to the well-formedness predicates -/

theorem entriesNodupB_mem (t : Tree) (k : GoStr) (v : Val)
    (hnd : entriesNodupB t = true) (hmem : (k, v) ∈ t) : valNodupB v = true := by
  induction t with
  | nil => simp at hmem
  | cons e rest ih =>
    obtain ⟨k', v'⟩ := e
    simp only [entriesNodupB, Bool.and_eq_true] at hnd
    rcases List.mem_cons.mp hmem with h | h
    · cases h; exact hnd.1.2
    · exact ih hnd.2 h

theorem entriesNoEmptyB_mem (t : Tree) (k : GoStr) (v : Val)
    (hne : entriesNoEmptyB t = true) (hmem : (k, v) ∈ t) : valNoEmptyB v = true := by
  induction t with
  | nil => simp at hmem
  | cons e rest ih =>
    obtain ⟨k', v'⟩ := e
    simp only [entriesNoEmptyB, Bool.and_eq_true] at hne
    rcases List.mem_cons.mp hmem with h | h
    · cases h; exact hne.1
    · exact ih hne.2 h

/-! ## Well-formedness is preserved by unflatten -/

theorem setk_entriesNodupB (t : Tree) (k : GoStr) (w : Val)
    (hnd : entriesNodupB t = true) (hw : valNodupB w = true) :
    entriesNodupB (setk t k w) = true := by
  induction t with
  | nil => simp [setk, entriesNodupB, getk, hw]
  | cons e rest ih =>
    obtain ⟨k', v'⟩ := e
    simp only [entriesNodupB, Bool.and_eq_true] at hnd
    by_cases hk : k' = k
    · subst hk
      simp [setk, entriesNodupB, hnd.1.1, hw, hnd.2]
    · simp only [setk, if_neg hk, entriesNodupB, Bool.and_eq_true]
      refine ⟨⟨?_, hnd.1.2⟩, ih hnd.2⟩
      rw [getk_setk_ne rest k k' w (fun he => hk he.symm)]
      exact hnd.1.1

theorem setk_entriesNoEmptyB (t : Tree) (k : GoStr) (w : Val)
    (hne : entriesNoEmptyB t = true) (hw : valNoEmptyB w = true) :
    entriesNoEmptyB (setk t k w) = true := by
  induction t with
  | nil => simp [setk, entriesNoEmptyB, hw]
  | cons e rest ih =>
    obtain ⟨k', v'⟩ := e
    simp only [entriesNoEmptyB, Bool.and_eq_true] at hne
    by_cases hk : k' = k
    · subst hk
      simp [setk, entriesNoEmptyB, hw, hne.2]
    · simp only [setk, if_neg hk, entriesNoEmptyB, Bool.and_eq_true]
      exact ⟨hne.1, ih hne.2⟩

theorem setk_ne_nil (t : Tree) (k : GoStr) (w : Val) : setk t k w ≠ [] := by
  cases t with
  | nil => simp [setk]
  | cons e rest =>
    obtain ⟨k', v'⟩ := e
    simp only [setk]
    split <;> simp

theorem insertPath_wf (p : List GoStr) :
    ∀ (t : Tree) (v : Prim) (t' : Tree), insertPath t p v = some t' →
      (entriesNodupB t = true → entriesNodupB t' = true) ∧
      (entriesNoEmptyB t = true → entriesNoEmptyB t' = true) ∧ t' ≠ [] := by
  induction p with
  | nil => intro t v t' h; cases h
  | cons k rest ih =>
    intro t v t' h
    cases rest with
    | nil =>
      simp only [insertPath, Option.some.injEq] at h
      subst h
      exact ⟨fun hnd => setk_entriesNodupB t k _ hnd rfl,
        fun hne => setk_entriesNoEmptyB t k _ hne rfl, setk_ne_nil _ _ _⟩
    | cons r rs =>
      cases hg : getk t k with
      | none =>
        cases hins : insertPath [] (r :: rs) v with
        | none =>
          rw [show insertPath t (k :: r :: rs) v = none by
            simp only [insertPath, hg, hins]] at h
          cases h
        | some sub =>
          rw [show insertPath t (k :: r :: rs) v = some (setk t k (.node sub)) by
            simp only [insertPath, hg, hins]] at h
          simp only [Option.some.injEq] at h
          subst h
          obtain ⟨hw1, hw2, hw3⟩ := ih [] v sub hins
          refine ⟨fun hnd => setk_entriesNodupB t k _ hnd (hw1 rfl),
            fun hne => setk_entriesNoEmptyB t k _ hne ?_, setk_ne_nil _ _ _⟩
          show (!sub.isEmpty && entriesNoEmptyB sub) = true
          simp [List.isEmpty_iff, hw3, hw2 rfl]
      | some vOld =>
        cases vOld with
        | prim q =>
          rw [show insertPath t (k :: r :: rs) v = none by
            simp only [insertPath, hg]] at h
          cases h
        | node sub =>
          cases hins : insertPath sub (r :: rs) v with
          | none =>
            rw [show insertPath t (k :: r :: rs) v = none by
              simp only [insertPath, hg, hins]] at h
            cases h
          | some sub' =>
            rw [show insertPath t (k :: r :: rs) v = some (setk t k (.node sub')) by
              simp only [insertPath, hg, hins]] at h
            simp only [Option.some.injEq] at h
            subst h
            obtain ⟨hw1, hw2, hw3⟩ := ih sub v sub' hins
            constructor
            · intro hnd
              have hsub : valNodupB (.node sub) = true :=
                entriesNodupB_mem t k _ hnd (mem_of_getk_eq_some t k _ hg)
              exact setk_entriesNodupB t k _ hnd (hw1 hsub)
            constructor
            · intro hne
              have hsub : valNoEmptyB (.node sub) = true :=
                entriesNoEmptyB_mem t k _ hne (mem_of_getk_eq_some t k _ hg)
              simp only [valNoEmptyB, Bool.and_eq_true] at hsub
              refine setk_entriesNoEmptyB t k _ hne ?_
              show (!sub'.isEmpty && entriesNoEmptyB sub') = true
              simp [List.isEmpty_iff, hw3, hw2 hsub.2]
            · exact setk_ne_nil _ _ _

theorem unflattenFrom_wf (fm : List (GoStr × Prim)) :
    ∀ (t : Tree) (T : Tree), unflattenFrom t fm = some T →
      (entriesNodupB t = true → entriesNodupB T = true) ∧
      (entriesNoEmptyB t = true → entriesNoEmptyB T = true) := by
  induction fm with
  | nil =>
    intro t T h
    simp only [unflattenFrom, Option.some.injEq] at h
    subst h
    exact ⟨id, id⟩
  | cons kv rest ih =>
    obtain ⟨k, v⟩ := kv
    intro t T h
    simp only [unflattenFrom] at h
    cases hins : insertPath t (splitDot k) v with
    | none => rw [hins] at h; cases h
    | some t' =>
      rw [hins] at h
      obtain ⟨h1, h2, _⟩ := insertPath_wf (splitDot k) t v t' hins
      obtain ⟨h3, h4⟩ := ih t' T h
      exact ⟨fun hnd => h3 (h1 hnd), fun hne => h4 (h2 hne)⟩

theorem unflatten_wf (fm : FlatMap) (T : Tree) (h : unflatten fm = some T) :
    entriesNodupB T = true ∧ entriesNoEmptyB T = true := by
  obtain ⟨h1, h2⟩ := unflattenFrom_wf fm [] T h
  exact ⟨h1 rfl, h2 rfl⟩

/-! ## getLeaf equations and characterization -/

theorem getLeaf_nil (t : Tree) : getLeaf t [] = none := by
  simp [getLeaf]

theorem getLeaf_cons_some (t : Tree) (k : GoStr) (rest : List GoStr) (v : Val)
    (hg : getk t k = some v) : getLeaf t (k :: rest) = getLeafVal v rest := by
  simp only [getLeaf, hg]

theorem getLeaf_cons_none (t : Tree) (k : GoStr) (rest : List GoStr)
    (hg : getk t k = none) : getLeaf t (k :: rest) = none := by
  simp only [getLeaf, hg]

theorem keysNodup_of_entriesNodupB (t : Tree) (h : entriesNodupB t = true) :
    keysNodup t := by
  induction t with
  | nil => simp [keysNodup]
  | cons e rest ih =>
    obtain ⟨k, v⟩ := e
    simp only [entriesNodupB, Bool.and_eq_true] at h
    refine List.nodup_cons.mpr ⟨getk_isNone_not_mem rest k h.1.1, ih h.2⟩

/-- A leaf entry of the flatten emission is found by `getLeaf` (trees with
unique sibling keys). -/
theorem getLeaf_of_mem :
    ∀ (t : Tree) (_keys : List GoStr), entriesNodupB t = true →
      ∀ q w, (q, w) ∈ flattenEntries t [] → getLeaf t q = some w :=
  flattenEntries.induct
    (fun k v _ => valNodupB v = true →
      ∀ p' w, (k :: p', w) ∈ flattenVal k v [] → getLeafVal v p' = some w)
    (fun t _ => entriesNodupB t = true →
      ∀ q w, (q, w) ∈ flattenEntries t [] → getLeaf t q = some w)
    (by
      intro k _ p _ p' w hmem
      simp only [flattenVal, List.nil_append, List.mem_singleton, Prod.mk.injEq,
        List.cons.injEq] at hmem
      obtain ⟨⟨_, hp'⟩, hw⟩ := hmem
      subst hp'
      subst hw
      simp [getLeafVal])
    (by
      intro k _ sub ih hnd p' w hmem
      rw [flattenVal_node_emit] at hmem
      obtain ⟨qv, hqv, hq⟩ := List.mem_map.mp hmem
      have h1 := congrArg Prod.fst hq
      have h2 := congrArg Prod.snd hq
      simp only [shiftP, List.singleton_append, List.cons.injEq, true_and] at h1 h2
      have hmem' : (p', w) ∈ flattenEntries sub [] := by
        rw [← h1, ← h2]
        simpa using hqv
      obtain ⟨k₀, _, p₀, hp₀⟩ := flattenEntries_mem_key sub (p', w) hmem'
      have hp0 : p' = k₀ :: p₀ := hp₀
      subst hp0
      have hnd' : entriesNodupB sub = true := hnd
      have := ih hnd' (k₀ :: p₀) w hmem'
      simpa [getLeafVal] using this)
    (by intro _ _ q w hmem; simp [flattenEntries] at hmem)
    (by
      intro _ k v rest ih1 ih2 hnd q w hmem
      simp only [entriesNodupB, Bool.and_eq_true] at hnd
      rw [flattenEntries] at hmem
      rcases List.mem_append.mp hmem with h | h
      · obtain ⟨p', hp'⟩ := flattenVal_path_head k v (q, w) h
        have hq : q = k :: p' := hp'
        subst hq
        have hgk : getk ((k, v) :: rest) k = some v := by simp [getk]
        rw [getLeaf_cons_some _ _ _ _ hgk]
        exact ih1 hnd.1.2 p' w h
      · obtain ⟨k', hk', p', hp'⟩ := flattenEntries_mem_key rest (q, w) h
        have hq : q = k' :: p' := hp'
        subst hq
        have hne : k ≠ k' := fun he => getk_isNone_not_mem rest k hnd.1.1 (he ▸ hk')
        have hgk : getk ((k, v) :: rest) k' = getk rest k' := by simp [getk, hne]
        have hrec := ih2 hnd.2 (k' :: p') w h
        cases hgr : getk rest k' with
        | none => rw [getLeaf_cons_none _ _ _ hgr] at hrec; cases hrec
        | some u =>
          rw [getLeaf_cons_some _ _ _ _ (hgk.trans hgr)]
          rw [getLeaf_cons_some _ _ _ _ hgr] at hrec
          exact hrec)

/-- A leaf found by `getLeaf` is an entry of the flatten emission. -/
theorem mem_of_getLeaf :
    ∀ (t : Tree) (q : List GoStr), ∀ w, getLeaf t q = some w →
      (q, w) ∈ flattenEntries t [] :=
  getLeaf.induct
    (fun t q => ∀ w, getLeaf t q = some w → (q, w) ∈ flattenEntries t [])
    (fun v q => ∀ k w, getLeafVal v q = some w → (k :: q, w) ∈ flattenVal k v [])
    (by intro t w h; rw [getLeaf_nil] at h; cases h)
    (by
      intro t k rest v hg ih w h
      rw [getLeaf_cons_some _ _ _ _ hg] at h
      exact flattenVal_sub_of_getk t k v [] hg _ (ih k w h))
    (by intro t k rest hg w h; rw [getLeaf_cons_none _ _ _ hg] at h; cases h)
    (by
      intro p k w h
      simp only [getLeafVal, Option.some.injEq] at h
      subst h
      simp [flattenVal])
    (by intro p r rs k w h; simp [getLeafVal] at h)
    (by intro sub k w h; simp [getLeafVal] at h)
    (by
      intro sub r rs ih k w h
      simp only [getLeafVal] at h
      rw [flattenVal_node_emit]
      exact List.mem_map.mpr ⟨(r :: rs, w), ih w h, rfl⟩)

/-- A tree all of whose nested mappings are non-empty, and which is itself
non-empty, emits at least one leaf. -/
theorem flattenEntries_ne_nil :
    ∀ (t : Tree) (_keys : List GoStr), entriesNoEmptyB t = true → t ≠ [] →
      flattenEntries t [] ≠ [] :=
  flattenEntries.induct
    (fun k v _ => valNoEmptyB v = true → flattenVal k v [] ≠ [])
    (fun t _ => entriesNoEmptyB t = true → t ≠ [] → flattenEntries t [] ≠ [])
    (by intro k _ p _; simp [flattenVal])
    (by
      intro k _ sub ih hne
      simp only [valNoEmptyB, Bool.and_eq_true] at hne
      rw [flattenVal_node_emit]
      simp only [ne_eq, List.map_eq_nil_iff]
      refine ih hne.2 ?_
      intro hsub
      rw [hsub] at hne
      simp at hne)
    (by intro _ h hne; exact absurd rfl hne)
    (by
      intro _ k v rest ih1 ih2 hne _
      simp only [entriesNoEmptyB, Bool.and_eq_true] at hne
      rw [flattenEntries]
      simp only [ne_eq, List.append_eq_nil, not_and]
      intro h1
      exact absurd h1 (ih1 hne.1))

/-- Extensional leaf lookup is invariant under permutation of the flatten
emission (trees with unique sibling keys). -/
theorem getLeaf_ext_of_perm (a b : Tree) (hnda : entriesNodupB a = true)
    (hndb : entriesNodupB b = true)
    (hperm : List.Perm (flattenEntries a []) (flattenEntries b [])) :
    ∀ q, getLeaf a q = getLeaf b q := by
  intro q
  cases hga : getLeaf a q with
  | some w =>
    have hmem := mem_of_getLeaf a q w hga
    exact (getLeaf_of_mem b [] hndb q w (hperm.subset hmem)).symm
  | none =>
    cases hgb : getLeaf b q with
    | none => rfl
    | some w =>
      have hmem := mem_of_getLeaf b q w hgb
      have := getLeaf_of_mem a [] hnda q w (hperm.symm.subset hmem)
      rw [this] at hga
      cases hga

/-! ## Extensionality: equal leaf lookups imply deep equality -/

theorem eqEntries_of_forall (l : List (GoStr × Val)) (b : Tree)
    (h : ∀ kv ∈ l, (match getk b kv.1 with
                    | some w => eqVal kv.2 w
                    | none => false) = true) : eqEntries l b = true := by
  induction l with
  | nil => rfl
  | cons kv rest ih =>
    obtain ⟨k, v⟩ := kv
    rw [eqEntries, Bool.and_eq_true]
    exact ⟨h (k, v) (List.mem_cons_self _ _), ih (fun kv hkv => h kv (List.mem_cons_of_mem _ hkv))⟩

theorem sizeOf_lt_of_mem_tree (a : Tree) (k : GoStr) (sub : Tree)
    (h : (k, Val.node sub) ∈ a) : sizeOf sub < sizeOf a := by
  induction a with
  | nil => simp at h
  | cons e rest ih =>
    rcases List.mem_cons.mp h with he | he
    · rw [← he]
      simp
      omega
    · have h1 := ih he
      have h2 : sizeOf rest < sizeOf (e :: rest) := by
        simp
      omega

/-- Two hierarchical maps with unique sibling keys and no empty nested
mapping that agree on every leaf lookup are deeply equal. -/
theorem eqTree_ext_aux :
    ∀ (n : Nat) (a b : Tree), sizeOf a ≤ n →
      entriesNodupB a = true → entriesNodupB b = true →
      entriesNoEmptyB a = true → entriesNoEmptyB b = true →
      (∀ q, getLeaf a q = getLeaf b q) → eqTree a b = true := by
  intro n
  induction n with
  | zero =>
    intro a b hsz _ _ _ _ _
    have : 0 < sizeOf a := by cases a <;> simp
    omega
  | succ n ih =>
    intro a b hsz hnda hndb hnea hneb hext
    rw [eqTree, Bool.and_eq_true]
    constructor
    · refine eqEntries_of_forall a b ?_
      intro kv hkv
      obtain ⟨k, v⟩ := kv
      have hgk : getk a k = some v :=
        getk_of_mem_nodup a k v hkv (keysNodup_of_entriesNodupB a hnda)
      cases v with
      | prim p =>
        have h1 : getLeaf a [k] = some p := by
          rw [getLeaf_cons_some _ _ _ _ hgk]
          simp [getLeafVal]
        have h2 : getLeaf b [k] = some p := (hext [k]).symm.trans h1
        cases hgb : getk b k with
        | none => rw [getLeaf_cons_none _ _ _ hgb] at h2; cases h2
        | some w =>
          rw [getLeaf_cons_some _ _ _ _ hgb] at h2
          cases w with
          | node s => simp [getLeafVal] at h2
          | prim p' =>
            simp only [getLeafVal, Option.some.injEq] at h2
            simp [hgb, eqVal, h2]
      | node sub =>
        have hvne : valNoEmptyB (.node sub) = true :=
          entriesNoEmptyB_mem a k _ hnea hkv
        simp only [valNoEmptyB, Bool.and_eq_true] at hvne
        have hsubne : sub ≠ [] := by
          intro hs
          rw [hs] at hvne
          simp at hvne
        have hndsub : entriesNodupB sub = true :=
          entriesNodupB_mem a k _ hnda hkv
        have hlp := flattenEntries_ne_nil sub [] hvne.2 hsubne
        obtain ⟨⟨q₀, w₀⟩, hq0⟩ : ∃ x, x ∈ flattenEntries sub [] := by
          cases hE : flattenEntries sub [] with
          | nil => exact absurd hE hlp
          | cons x r => exact ⟨x, by exact List.mem_cons_self _ _⟩
        obtain ⟨k₀, _, p₀, hp₀⟩ := flattenEntries_mem_key sub (q₀, w₀) hq0
        have hq₀ : q₀ = k₀ :: p₀ := hp₀
        subst hq₀
        have hleafsub : getLeaf sub (k₀ :: p₀) = some w₀ :=
          getLeaf_of_mem sub [] hndsub _ w₀ hq0
        have hla : getLeaf a (k :: k₀ :: p₀) = some w₀ := by
          rw [getLeaf_cons_some _ _ _ _ hgk]
          simpa [getLeafVal] using hleafsub
        have hlb : getLeaf b (k :: k₀ :: p₀) = some w₀ := (hext _).symm.trans hla
        cases hgb : getk b k with
        | none => rw [getLeaf_cons_none _ _ _ hgb] at hlb; cases hlb
        | some w =>
          rw [getLeaf_cons_some _ _ _ _ hgb] at hlb
          cases w with
          | prim pb => simp [getLeafVal] at hlb
          | node subB =>
            have hmemB := mem_of_getk_eq_some b k _ hgb
            have hndsubB : entriesNodupB subB = true :=
              entriesNodupB_mem b k _ hndb hmemB
            have hvneB : valNoEmptyB (.node subB) = true :=
              entriesNoEmptyB_mem b k _ hneb hmemB
            simp only [valNoEmptyB, Bool.and_eq_true] at hvneB
            have hsz' : sizeOf sub ≤ n := by
              have := sizeOf_lt_of_mem_tree a k sub hkv
              omega
            have hextsub : ∀ q, getLeaf sub q = getLeaf subB q := by
              intro q
              cases q with
              | nil => rw [getLeaf_nil, getLeaf_nil]
              | cons r rs =>
                have e1 : getLeaf a (k :: r :: rs) = getLeaf sub (r :: rs) := by
                  rw [getLeaf_cons_some _ _ _ _ hgk]
                  simp [getLeafVal]
                have e2 : getLeaf b (k :: r :: rs) = getLeaf subB (r :: rs) := by
                  rw [getLeaf_cons_some _ _ _ _ hgb]
                  simp [getLeafVal]
                rw [← e1, ← e2]
                exact hext _
            have heq := ih sub subB hsz' hndsub hndsubB hvne.2 hvneB.2 hextsub
            rw [eqTree] at heq
            simp [hgb, eqVal, heq]
    · rw [keysIncl, List.all_eq_true]
      intro kv hkv
      obtain ⟨k, w⟩ := kv
      have hgbk : getk b k = some w :=
        getk_of_mem_nodup b k w hkv (keysNodup_of_entriesNodupB b hndb)
      cases w with
      | prim p =>
        have hlb : getLeaf b [k] = some p := by
          rw [getLeaf_cons_some _ _ _ _ hgbk]
          simp [getLeafVal]
        have hla : getLeaf a [k] = some p := (hext [k]).trans hlb
        cases hga : getk a k with
        | none => rw [getLeaf_cons_none _ _ _ hga] at hla; cases hla
        | some w' => simp [hga]
      | node subB =>
        have hvneB : valNoEmptyB (.node subB) = true :=
          entriesNoEmptyB_mem b k _ hneb hkv
        simp only [valNoEmptyB, Bool.and_eq_true] at hvneB
        have hsubBne : subB ≠ [] := by
          intro hs
          rw [hs] at hvneB
          simp at hvneB
        have hndsubB : entriesNodupB subB = true :=
          entriesNodupB_mem b k _ hndb hkv
        have hlpB := flattenEntries_ne_nil subB [] hvneB.2 hsubBne
        obtain ⟨⟨q₀, w₀⟩, hq0⟩ : ∃ x, x ∈ flattenEntries subB [] := by
          cases hE : flattenEntries subB [] with
          | nil => exact absurd hE hlpB
          | cons x r => exact ⟨x, by exact List.mem_cons_self _ _⟩
        obtain ⟨k₀, _, p₀, hp₀⟩ := flattenEntries_mem_key subB (q₀, w₀) hq0
        have hq₀ : q₀ = k₀ :: p₀ := hp₀
        subst hq₀
        have hleafB : getLeaf subB (k₀ :: p₀) = some w₀ :=
          getLeaf_of_mem subB [] hndsubB _ w₀ hq0
        have hlb : getLeaf b (k :: k₀ :: p₀) = some w₀ := by
          rw [getLeaf_cons_some _ _ _ _ hgbk]
          simpa [getLeafVal] using hleafB
        have hla : getLeaf a (k :: k₀ :: p₀) = some w₀ := (hext _).trans hlb
        cases hga : getk a k with
        | none => rw [getLeaf_cons_none _ _ _ hga] at hla; cases hla
        | some w' => simp [hga]

theorem foldSet_keys_append (l : List (GoStr × Prim)) :
    ∀ init, keysNodup (init ++ l) → foldSet init l = init ++ l := by
  induction l with
  | nil => intro init _; simp [foldSet]
  | cons kv rest ih =>
    obtain ⟨k, v⟩ := kv
    intro init hnd
    have hstep : foldSet init ((k, v) :: rest) = foldSet (setk init k v) rest := rfl
    have hkinit : k ∉ init.map Prod.fst := by
      have h' : ((init ++ (k, v) :: rest).map Prod.fst).Nodup := hnd
      rw [List.map_append, List.map_cons] at h'
      have hd := (List.nodup_append.mp h').2.2
      intro hk
      exact hd hk (List.mem_cons_self _ _)
    have hset : setk init k v = init ++ [(k, v)] :=
      map_fst_setk_not_mem init k v (getk_eq_none_of_not_mem _ _ hkinit)
    have hnd' : keysNodup ((init ++ [(k, v)]) ++ rest) := by
      rw [List.append_assoc, List.singleton_append]
      exact hnd
    rw [hstep, hset, ih (init ++ [(k, v)]) hnd']
    rw [List.append_assoc, List.singleton_append]

/-! ## Claim C2 -/

/-- C2 counterexample: the single-entry hierarchical map with key `a.b`
(a key containing the joiner, no empty mapping anywhere) does not survive
the round trip: flatten emits flat key `a.b`, and unflatten rebuilds the
nested tree `a ↦ (b ↦ 1)`, which is not equal to the original. -/
theorem C2_counterexample :
    entriesNodupB [(gs "a.b", Val.prim (Prim.int 1))] = true ∧
    entriesNoEmptyB [(gs "a.b", Val.prim (Prim.int 1))] = true ∧
    ¬ ∃ T, unflatten (flatten [(gs "a.b", Val.prim (Prim.int 1))]) = some T ∧
        eqTree T [(gs "a.b", Val.prim (Prim.int 1))] = true := by
  refine ⟨by decide, by decide, ?_⟩
  rintro ⟨T, hT, heq⟩
  have he : unflatten (flatten [(gs "a.b", Val.prim (Prim.int 1))]) =
      some [(gs "a", Val.node [(gs "b", Val.prim (Prim.int 1))])] := by rfl
  rw [he] at hT
  injection hT with hT
  subst hT
  exact absurd heq (by decide)

/-- C2 (amended): for every hierarchical map with unique sibling keys,
no empty nested mapping, and no key containing the joiner character at any
level, unflattening the result of flattening returns a tree deeply equal
to the original: `Unflatten(Flatten(tree)) == tree`. -/
theorem C2_flatten_unflatten_roundtrip (t : Tree)
    (hnd : entriesNodupB t = true)
    (hne : entriesNoEmptyB t = true)
    (hdf : entriesDotFreeB t = true) :
    ∃ T, unflatten (flatten t) = some T ∧ eqTree T t = true := by
  have hndL := flattenEntries_join_nodup t hnd hdf
  have hfl : flatten t =
      (flattenEntries t []).map (fun pv => (joinDot pv.1, pv.2)) := by
    show foldSet [] _ = _
    simpa using foldSet_keys_append
      ((flattenEntries t []).map (fun pv => (joinDot pv.1, pv.2))) []
      (by simpa using hndL)
  have hsplit : ∀ pv ∈ flattenEntries t [], splitDot (joinDot pv.1) = pv.1 := by
    intro pv hpv
    have hdf' := flattenEntries_dotFree t [] hdf pv hpv
    obtain ⟨k₀, _, p₀, hp₀⟩ := flattenEntries_mem_key t pv hpv
    exact splitDot_joinDot pv.1 (by rw [hp₀]; simp) hdf'
  have hpw : ((flatten t).map (fun kv => splitDot kv.1)).Pairwise
      (fun p q => incompB p q = true) := by
    rw [hfl, List.map_map]
    have hcg : (flattenEntries t []).map
        ((fun kv => splitDot kv.1) ∘ (fun pv => (joinDot pv.1, pv.2)))
        = (flattenEntries t []).map (fun pv => pv.1) := by
      refine List.map_congr_left ?_
      intro pv hpv
      show splitDot (joinDot pv.1) = pv.1
      exact hsplit pv hpv
    rw [hcg]
    exact List.pairwise_map.mpr (flattenEntries_pairwise_incomp t [] hnd)
  obtain ⟨T, hT, hperm⟩ := unflatten_spec (flatten t) hpw
  have hid : (flatten t).map (fun kv => (splitDot kv.1, kv.2))
      = flattenEntries t [] := by
    rw [hfl, List.map_map]
    have hcg : (flattenEntries t []).map
        ((fun kv => (splitDot kv.1, kv.2)) ∘ (fun pv => (joinDot pv.1, pv.2)))
        = (flattenEntries t []).map id := by
      refine List.map_congr_left ?_
      intro pv hpv
      show (splitDot (joinDot pv.1), pv.2) = id pv
      rw [hsplit pv hpv]
      simp
    rw [hcg, List.map_id]
  rw [hid] at hperm
  obtain ⟨hndT, hneT⟩ := unflatten_wf (flatten t) T hT
  exact ⟨T, hT, eqTree_ext_aux (sizeOf T) T t le_rfl hndT hnd hneT hne
    (getLeaf_ext_of_perm T t hndT hnd hperm)⟩

/-- Witness for the amended C2 at a concrete nested tree. -/
theorem C2_flatten_unflatten_roundtrip_witness :
    entriesNodupB [(gs "a", Val.node [(gs "b", Val.prim (Prim.int 1))]),
      (gs "c", Val.prim (Prim.str (gs "x")))] = true ∧
    entriesNoEmptyB [(gs "a", Val.node [(gs "b", Val.prim (Prim.int 1))]),
      (gs "c", Val.prim (Prim.str (gs "x")))] = true ∧
    entriesDotFreeB [(gs "a", Val.node [(gs "b", Val.prim (Prim.int 1))]),
      (gs "c", Val.prim (Prim.str (gs "x")))] = true ∧
    ∃ T, unflatten (flatten [(gs "a", Val.node [(gs "b", Val.prim (Prim.int 1))]),
      (gs "c", Val.prim (Prim.str (gs "x")))]) = some T ∧
      eqTree T [(gs "a", Val.node [(gs "b", Val.prim (Prim.int 1))]),
        (gs "c", Val.prim (Prim.str (gs "x")))] = true :=
  ⟨by decide, by decide, by decide,
    C2_flatten_unflatten_roundtrip
      [(gs "a", Val.node [(gs "b", Val.prim (Prim.int 1))]),
       (gs "c", Val.prim (Prim.str (gs "x")))]
      (by decide) (by decide) (by decide)⟩

/-! ## Sources and the configuration store -/

/-- Source-level errors: parse failure, unsupported extension, unreadable
file, marshal failure, failed type assertion in the decode hook. -/
inductive GoErr : Type where
  | parse : GoErr
  | badExt : GoErr
  | ioErr : GoErr
  | marshal : GoErr
  | assertFail : GoErr
deriving DecidableEq

/-- `bufSource.Override` (lines 472-481), with the result of
`readBuf(s.buf, s.ext)` — parsing the buffer with the external JSON/YAML
decoder and flattening it (lines 483-517) — supplied as `parsed`.  The
first component is the final value of the config map object: the source
merges into it in place on success (`config[key] = value` for every
parsed entry) and leaves it untouched on error. -/
def bufOverride (parsed : Except GoErr FlatMap) (config : FlatMap) :
    FlatMap × Option GoErr :=
  match parsed with
  | .error e => (config, some e)
  | .ok fm => (foldSet config fm, none)

/-- The key mapping of `structSource.Override`: prepend `prefix + "."`
when a prefix is configured (lines 415-418). -/
def structKey (pfx k : GoStr) : GoStr := if pfx = [] then k else pfx ++ '.' :: k

/-- `structSource.Override` (lines 405-422): marshal the wrapped value to
JSON, parse and flatten it through a fresh buffer source (outcome supplied
as `marshaled`; both the marshal error and the inner parse error return
the untouched config), then merge each entry under the optional prefix. -/
def structOverride (marshaled : Except GoErr FlatMap) (pfx : GoStr)
    (config : FlatMap) : FlatMap × Option GoErr :=
  match marshaled with
  | .error e => (config, some e)
  | .ok fm =>
    (fm.foldl (fun c kv => setk c (structKey pfx kv.1) kv.2) config, none)

/-- `fileSource.Override` (lines 450-461): read the file (outcome
supplied), infer the extension, delegate to the buffer source. -/
def fileOverride (readRes : Except GoErr (Except GoErr FlatMap))
    (config : FlatMap) : FlatMap × Option GoErr :=
  match readRes with
  | .error e => (config, some e)
  | .ok parsed => bufOverride parsed config

/-- `Config.AddSource` (lines 339-346): the store's flat map after the
call.  On success `c.flat` is assigned the returned map; on error the
field keeps referencing the map object the source received, whose final
value is the override's first component (the sources mutate in place). -/
def addSource (flat : FlatMap) (ov : FlatMap → FlatMap × Option GoErr) :
    FlatMap × Option GoErr := ov flat

theorem foldl_setk_mapped_isSome (l : List (GoStr × Prim)) (f : GoStr → GoStr) :
    ∀ (init : FlatMap) (q : GoStr), (getk init q).isSome = true →
    (getk (l.foldl (fun c kv => setk c (f kv.1) kv.2) init) q).isSome = true := by
  induction l with
  | nil => intro init q h; exact h
  | cons kv rest ih =>
    obtain ⟨k, v⟩ := kv
    intro init q h
    refine ih (setk init (f k) v) q ?_
    by_cases hq : f k = q
    · subst hq
      simp [getk_setk_self]
    · rw [getk_setk_ne init (f k) q v hq]
      exact h

/-- For a fixed prefix, the key mapping of the struct source is
injective. -/
theorem structKey_inj (pfx : GoStr) (a b : GoStr)
    (h : structKey pfx a = structKey pfx b) : a = b := by
  unfold structKey at h
  by_cases hp : pfx = []
  · simpa [hp] using h
  · rw [if_neg hp, if_neg hp] at h
    have h' := List.append_cancel_left h
    injection h'

/-- Reading a key of the form `f q` after merging a unique-keyed batch of
entries through the key mapping `f` (injective): the batch's entry at `q`
wins when present, the previous map's entry otherwise. -/
theorem foldl_setk_mapped_getk (f : GoStr → GoStr)
    (hinj : ∀ a b, f a = f b → a = b) (l : List (GoStr × Prim)) :
    ∀ (init : FlatMap) (q : GoStr), keysNodup l →
    getk (l.foldl (fun c kv => setk c (f kv.1) kv.2) init) (f q) =
      (match getk l q with
       | some v => some v
       | none => getk init (f q)) := by
  induction l with
  | nil => intro init q _; simp [getk]
  | cons kv rest ih =>
    obtain ⟨k, v⟩ := kv
    intro init q hnd
    simp only [keysNodup, List.map_cons, List.nodup_cons] at hnd
    have hstep : ((k, v) :: rest).foldl (fun c kv => setk c (f kv.1) kv.2) init
        = rest.foldl (fun c kv => setk c (f kv.1) kv.2) (setk init (f k) v) := rfl
    rw [hstep, ih (setk init (f k) v) q hnd.2]
    by_cases hq : k = q
    · subst hq
      have hnone : getk rest k = none := getk_eq_none_of_not_mem rest k hnd.1
      rw [hnone]
      simp [getk, getk_setk_self]
    · have hfq : f k ≠ f q := fun he => hq (hinj k q he)
      have hgk : getk ((k, v) :: rest) q = getk rest q := by simp [getk, hq]
      rw [hgk]
      cases getk rest q with
      | some w => rfl
      | none => simp [getk_setk_ne init (f k) (f q) v hfq]

/-! ## Claim C4 -/

/-- C4: a successful Override never deletes a key: every key of the input
map is present in the output, the source's own entries are added or
overwrite existing ones (the output lookup is the source's entry when the
source contributes the key — for the struct source, at the prefixed key —
and the input's entry otherwise), and when two sources added one after
the other contribute the same key the later one's value is in the store
while keys unique to either survive.  Stated for the buffer source and
the struct source (lines 472-481 and 405-422). -/
theorem C4_override_merge :
    (∀ (fm cfg : FlatMap) (q : GoStr), (getk cfg q).isSome = true →
      (getk (bufOverride (.ok fm) cfg).1 q).isSome = true) ∧
    (∀ (fm cfg : FlatMap) (q : GoStr), keysNodup fm →
      getk (bufOverride (.ok fm) cfg).1 q =
        (match getk fm q with
         | some v => some v
         | none => getk cfg q)) ∧
    (∀ (fm : FlatMap) (pfx : GoStr) (cfg : FlatMap) (q : GoStr),
      (getk cfg q).isSome = true →
      (getk (structOverride (.ok fm) pfx cfg).1 q).isSome = true) ∧
    (∀ (fm : FlatMap) (pfx : GoStr) (cfg : FlatMap) (q : GoStr), keysNodup fm →
      getk (structOverride (.ok fm) pfx cfg).1 (structKey pfx q) =
        (match getk fm q with
         | some v => some v
         | none => getk cfg (structKey pfx q))) ∧
    (∀ (fm₁ fm₂ cfg : FlatMap) (q : GoStr) (v : Prim), keysNodup fm₂ →
      getk fm₂ q = some v →
      getk (addSource (addSource cfg (bufOverride (.ok fm₁))).1
        (bufOverride (.ok fm₂))).1 q = some v) ∧
    (∀ (fm₁ fm₂ cfg : FlatMap) (q : GoStr), keysNodup fm₁ → keysNodup fm₂ →
      getk fm₂ q = none →
      getk (addSource (addSource cfg (bufOverride (.ok fm₁))).1
        (bufOverride (.ok fm₂))).1 q =
        (match getk fm₁ q with
         | some v => some v
         | none => getk cfg q)) := by
  refine ⟨?_, ?_, ?_, ?_, ?_, ?_⟩
  · intro fm cfg q h
    exact foldSet_getk_isSome fm cfg q h
  · intro fm cfg q hnd
    exact foldSet_getk_nodup fm cfg q hnd
  · intro fm pfx cfg q h
    exact foldl_setk_mapped_isSome fm (structKey pfx) cfg q h
  · intro fm pfx cfg q hnd
    exact foldl_setk_mapped_getk (structKey pfx) (structKey_inj pfx) fm cfg q hnd
  · intro fm₁ fm₂ cfg q v hnd2 hq
    show getk (foldSet (foldSet cfg fm₁) fm₂) q = some v
    rw [foldSet_getk_nodup fm₂ _ q hnd2, hq]
  · intro fm₁ fm₂ cfg q hnd1 hnd2 hq
    show getk (foldSet (foldSet cfg fm₁) fm₂) q = _
    rw [foldSet_getk_nodup fm₂ _ q hnd2, hq,
      foldSet_getk_nodup fm₁ cfg q hnd1]

/-- Witness for C4: the later source's value wins for the shared key `k`,
key `j` unique to the store survives, and the struct source's entry `k`
shows up at the prefixed key `p.k`, overwriting the store's entry there. -/
theorem C4_override_merge_witness :
    getk (addSource (addSource [(gs "j", Prim.int 3)]
        (bufOverride (.ok [(gs "k", Prim.int 1)]))).1
        (bufOverride (.ok [(gs "k", Prim.int 2)]))).1 (gs "k")
      = some (Prim.int 2) ∧
    getk (bufOverride (.ok [(gs "k", Prim.int 2)])
        [(gs "k", Prim.int 1), (gs "j", Prim.int 3)]).1 (gs "j")
      = (match getk [(gs "k", Prim.int 2)] (gs "j") with
         | some v => some v
         | none => getk [(gs "k", Prim.int 1), (gs "j", Prim.int 3)] (gs "j")) ∧
    getk (structOverride (.ok [(gs "k", Prim.int 2)]) (gs "p")
        [(gs "p.k", Prim.int 1)]).1 (structKey (gs "p") (gs "k"))
      = (match getk [(gs "k", Prim.int 2)] (gs "k") with
         | some v => some v
         | none => getk [(gs "p.k", Prim.int 1)] (structKey (gs "p") (gs "k"))) :=
  ⟨C4_override_merge.2.2.2.2.1 [(gs "k", Prim.int 1)] [(gs "k", Prim.int 2)]
      [(gs "j", Prim.int 3)] (gs "k") (Prim.int 2) (by decide) (by decide),
   C4_override_merge.2.1 [(gs "k", Prim.int 2)]
      [(gs "k", Prim.int 1), (gs "j", Prim.int 3)] (gs "j") (by decide),
   C4_override_merge.2.2.2.1 [(gs "k", Prim.int 2)] (gs "p")
      [(gs "p.k", Prim.int 1)] (gs "k") (by decide)⟩

/-! ## Claim C5 -/

/-- C5: when a source fails, the map it was given is returned unmodified
(each source parses/validates fully before writing), so a failing
AddSource leaves the store's flat map equal to its value before the call.
Stated for the buffer source (parse error), the struct source (marshal or
inner parse error), and the file source (read error, and parse error
after a successful read). -/
theorem C5_addSource_error_preserves :
    (∀ (e : GoErr) (cfg : FlatMap),
       addSource cfg (bufOverride (.error e)) = (cfg, some e)) ∧
    (∀ (e : GoErr) (pfx : GoStr) (cfg : FlatMap),
       addSource cfg (structOverride (.error e) pfx) = (cfg, some e)) ∧
    (∀ (e : GoErr) (cfg : FlatMap),
       addSource cfg (fileOverride (.error e)) = (cfg, some e)) ∧
    (∀ (e : GoErr) (cfg : FlatMap),
       addSource cfg (fileOverride (.ok (.error e))) = (cfg, some e)) :=
  ⟨fun _ _ => rfl, fun _ _ _ => rfl, fun _ _ => rfl, fun _ _ => rfl⟩

/-! ## The environment source (second variant, lines 203-224) -/

/-- strings.ToLower (ASCII, as used for environment variable names). -/
def goToLower (s : GoStr) : GoStr := s.map Char.toLower

/-- strings.Replace(key, "_", ".", -1). -/
def replUnderscore (s : GoStr) : GoStr :=
  s.map (fun c => if c = '_' then '.' else c)

/-- strings.HasPrefix(s, p). -/
def goHasPfx : GoStr → GoStr → Bool
  | _, [] => true
  | [], _ :: _ => false
  | c :: s, d :: p => c = d && goHasPfx s p

/-- strings.TrimPrefix(s, p). -/
def goTrimPfx (s p : GoStr) : GoStr :=
  if goHasPfx s p then s.drop p.length else s

/-- `NewEnvSource` (lines 207-209): the prefix is lower-cased at
construction. -/
def newEnvSource (pfx : GoStr) : GoStr := goToLower pfx

/-- The `range os.Environ()` loop of `envSource.Override` (lines 212-222):
lower-case the name, replace underscores by dots, skip the variable unless
the transformed name starts with `prefix + "."`, else strip the prefix and
write the raw string value. -/
def envLoop (pfx : GoStr) : List (GoStr × GoStr) → FlatMap → FlatMap
  | [], cfg => cfg
  | nv :: rest, cfg =>
    let key := replUnderscore (goToLower nv.1)
    if goHasPfx key (pfx ++ ['.'])
    then envLoop pfx rest (setk cfg (goTrimPfx key (pfx ++ ['.'])) (.str nv.2))
    else envLoop pfx rest cfg

/-- `envSource.Override` (lines 211-224), with the process environment
supplied as name/value pairs (the `os.Environ` collaborator).  Never
fails. -/
def envOverride (env : List (GoStr × GoStr)) (pfx : GoStr)
    (config : FlatMap) : FlatMap × Option GoErr :=
  (envLoop pfx env config, none)

theorem envLoop_filter (pfx : GoStr) : ∀ (env : List (GoStr × GoStr)) (cfg : FlatMap),
    envLoop pfx env cfg =
      envLoop pfx (env.filter (fun nv =>
        goHasPfx (replUnderscore (goToLower nv.1)) (pfx ++ ['.']))) cfg := by
  intro env
  induction env with
  | nil => intro cfg; rfl
  | cons nv rest ih =>
    intro cfg
    by_cases hc : goHasPfx (replUnderscore (goToLower nv.1)) (pfx ++ ['.']) = true
    · simp only [envLoop, hc, if_true, List.filter_cons, ih]
    · simp only [envLoop, List.filter_cons]
      rw [if_neg (by simpa using hc), if_neg (by simpa using hc)]
      exact ih cfg

/-! ## Claim C6 -/

/-- C6: the environment source with prefix `my` turns the variable
`MY_S_VALUE=hello` into the flat entry `s.value ↦ "hello"` (name
lower-cased, underscores replaced by dots, prefix plus dot stripped, value
inserted as a raw string), and variables whose transformed name does not
begin with the prefix plus `"."` contribute nothing: the override equals
the override of the filtered environment. -/
theorem C6_envSource :
    envOverride [(gs "MY_S_VALUE", gs "hello")] (newEnvSource (gs "my")) []
      = ([(gs "s.value", Prim.str (gs "hello"))], none) ∧
    ∀ (env : List (GoStr × GoStr)) (pfx : GoStr) (cfg : FlatMap),
      envOverride env pfx cfg =
        envOverride (env.filter (fun nv =>
          goHasPfx (replUnderscore (goToLower nv.1)) (pfx ++ ['.']))) pfx cfg := by
  constructor
  · decide
  · intro env pfx cfg
    show (envLoop pfx env cfg, none) = (envLoop pfx _ cfg, none)
    rw [envLoop_filter pfx env cfg]

/-! ## The decode hook (lines 388-394) -/

/-- The reflect type information the decode hook inspects: enough of a Go
type to answer `Kind() == reflect.String` and
`String() == "time.Duration"`. -/
inductive RType : Type where
  | goString
  | goBool
  | goInt
  | goFloat
  | goDuration
  | goOther
deriving DecidableEq

/-- `srcType.Kind() == reflect.String`. -/
def kindIsString : RType → Bool
  | .goString => true
  | _ => false

/-- `dstType.String() == "time.Duration"`. -/
def nameIsDuration : RType → Bool
  | .goDuration => true
  | _ => false

/-- Nanoseconds per unit, from Go's duration unit table. -/
def durUnit : GoStr → Option Int
  | ['n', 's'] => some 1
  | ['u', 's'] => some 1000
  | ['m', 's'] => some 1000000
  | ['s'] => some 1000000000
  | ['m'] => some 60000000000
  | ['h'] => some 3600000000000
  | _ => none

/-- Decimal value of a digit run. -/
def digitsVal (l : List Char) : Nat :=
  l.foldl (fun n c => 10 * n + (c.toNat - 48)) 0

/-- Split a duration body into (number, unit) components: a digit run
followed by a non-digit (unit) run, repeated.  Fueled by the string
length; one character is always consumed per component. -/
def durComps : Nat → GoStr → Option (List (Nat × GoStr))
  | _, [] => some []
  | 0, _ :: _ => none
  | fuel + 1, c :: rest =>
    if c.isDigit then
      let ds := (c :: rest).takeWhile Char.isDigit
      let r1 := (c :: rest).dropWhile Char.isDigit
      let us := r1.takeWhile (fun x => !x.isDigit)
      let r2 := r1.dropWhile (fun x => !x.isDigit)
      if us.isEmpty then none
      else
        match durComps fuel r2 with
        | some cs => some ((digitsVal ds, us) :: cs)
        | none => none
    else none

/-- Sum the components against the unit table. -/
def sumComps : List (Nat × GoStr) → Option Int
  | [] => some 0
  | (n, u) :: rest =>
    match durUnit u, sumComps rest with
    | some m, some acc => some (n * m + acc)
    | _, _ => none

/-- Modelled from the spec: the external collaborator `time.ParseDuration`
(Go standard library, not part of this repository), restricted to
duration-string syntax without fractional numbers: an optional sign, then
a sequence of decimal-number/unit components with units ns, us, ms, s, m,
h; the bare string "0" is zero.  Durations are int64 nanoseconds, so
"1m" parses to 60000000000 ns = 60 seconds; anything else is a parse
error. -/
def parseDuration (s : GoStr) : Except GoErr Int :=
  let sr : Bool × GoStr :=
    match s with
    | '-' :: r => (true, r)
    | '+' :: r => (false, r)
    | r => (false, r)
  if sr.2 = ['0'] then .ok 0
  else if sr.2 = [] then .error .parse
  else
    match durComps sr.2.length sr.2 with
    | none => .error .parse
    | some cs =>
      match sumComps cs with
      | none => .error .parse
      | some n => .ok (if sr.1 then -n else n)

/-- `decodeHook` (lines 388-394): when the source value's kind is String
and the destination type prints as `time.Duration`, parse the string as a
duration (the type assertion `v.(string)` panics on a non-string value,
modelled as an error); for every other pair of types the value is
returned unchanged. -/
def decodeHook (srcType dstType : RType) (v : Prim) : Except GoErr Prim :=
  if kindIsString srcType && nameIsDuration dstType then
    match v with
    | .str s =>
      match parseDuration s with
      | .ok d => .ok (.dur d)
      | .error e => .error e
    | _ => .error .assertFail
  else .ok v

/-! ## Claim C7 -/

/-- C7: the conversion hook parses string-to-duration (`"1m"` gives
60000000000 ns = 60 seconds; a malformed duration string fails), and for
every other (source kind, destination type) pair it returns the value
unchanged. -/
theorem C7_decodeHook :
    decodeHook .goString .goDuration (.str (gs "1m"))
      = .ok (.dur (60 * 1000000000)) ∧
    decodeHook .goString .goDuration (.str (gs "xyz")) = .error .parse ∧
    (∀ (srcType dstType : RType) (v : Prim),
      (kindIsString srcType && nameIsDuration dstType) = false →
      decodeHook srcType dstType v = .ok v) := by
  refine ⟨rfl, rfl, ?_⟩
  intro srcType dstType v h
  unfold decodeHook
  rw [h]
  rfl

/-- Witness for the pass-through case of C7 at a concrete non-matching
type pair. -/
theorem C7_decodeHook_witness :
    decodeHook RType.goBool RType.goInt (Prim.bool true)
      = Except.ok (Prim.bool true) :=
  C7_decodeHook.2.2 RType.goBool RType.goInt (Prim.bool true) (by decide)

/-! ## The store's map as a heap object (claim C8) -/

/-- A heap of flat-map objects: Go maps are reference values; a reference
is an index into the heap. -/
abbrev Heap := List FlatMap

/-- Reading a map object. -/
def heapRead (h : Heap) (r : Nat) : FlatMap := h.getD r []

/-- Writing `m[k] = v` through a map reference. -/
def heapWrite (h : Heap) (r : Nat) (k : GoStr) (v : Prim) : Heap :=
  h.set r (setk (heapRead h r) k v)

/-- The configuration store: the field `c.flat` references its map. -/
structure ConfigRef where
  flat : Nat

/-- `Config.ToFlatMap` (lines 349-351): `return c.flat` — the reference
itself is returned; no copy of the map is made. -/
def toFlatMapRef (c : ConfigRef) : Nat := c.flat

/-- The current value of the store's flat map in a heap. -/
def storeFlat (h : Heap) (c : ConfigRef) : FlatMap := heapRead h c.flat

/-! ## Claim C8 -/

/-- C8 counterexample: writing through the map returned by ToFlatMap does
change the store's state, refuting the snapshot/copy claim: a store whose
map object holds `a ↦ 1`, after the caller writes `b ↦ 2` into the
returned map, reads back a different flat map. -/
theorem C8_counterexample :
    ¬ (storeFlat (heapWrite [[(gs "a", Prim.int 1)]]
          (toFlatMapRef ⟨0⟩) (gs "b") (Prim.int 2)) ⟨0⟩
        = storeFlat [[(gs "a", Prim.int 1)]] ⟨0⟩) := by
  decide

/-- C8 (amended): ToFlatMap returns the store's own map reference — a
live alias, not a snapshot: writing a key through the returned reference
makes the store's flat map equal to `setk` of its previous value. -/
theorem C8_toFlatMap_alias (h : Heap) (c : ConfigRef) (k : GoStr) (v : Prim)
    (hr : c.flat < h.length) :
    toFlatMapRef c = c.flat ∧
    storeFlat (heapWrite h (toFlatMapRef c) k v) c = setk (storeFlat h c) k v := by
  refine ⟨rfl, ?_⟩
  show heapRead (h.set c.flat (setk (heapRead h c.flat) k v)) c.flat = _
  unfold heapRead
  rw [List.getD_eq_getElem?_getD, List.getElem?_set_self (by simpa using hr)]
  rfl

/-- Witness for the amended C8 at a concrete one-entry store. -/
theorem C8_toFlatMap_alias_witness :
    (0 : Nat) < ([[(gs "a", Prim.int 1)]] : Heap).length ∧
    (toFlatMapRef ⟨0⟩ = 0 ∧
      storeFlat (heapWrite [[(gs "a", Prim.int 1)]] (toFlatMapRef ⟨0⟩)
        (gs "b") (Prim.int 2)) ⟨0⟩
      = setk (storeFlat [[(gs "a", Prim.int 1)]] ⟨0⟩) (gs "b") (Prim.int 2)) :=
  ⟨by decide,
    C8_toFlatMap_alias [[(gs "a", Prim.int 1)]] ⟨0⟩ (gs "b") (Prim.int 2) (by decide)⟩

/-! ## Config.Unmarshal and its prefix filter (claim C3) -/

/-- The prefix-filtering loop of `Config.Unmarshal` (lines 368-374): keep
only keys beginning with `prefix + "."`, with the prefix stripped. -/
def filterPfx (pfx : GoStr) (fm : FlatMap) : FlatMap :=
  fm.foldl (fun acc kv =>
    if goHasPfx kv.1 (pfx ++ ['.'])
    then setk acc (goTrimPfx kv.1 (pfx ++ ['.'])) kv.2
    else acc) []

/-- `Config.Unmarshal` (lines 363-376), up to the hierarchical map handed
to the structural decoder.  Faithful to the source: at line 367 the
`fm := make(...)` inside `if prefix != ""` declares a NEW variable that
shadows the outer `fm` of line 365, so the filtered map built by the loop
is discarded when the block ends, and line 376 unflattens the outer `fm`,
which is still the whole flat map. -/
def unmarshalTree (pfx : GoStr) (flat : FlatMap) : Option Tree :=
  let pfm := flat
  let fm := pfm
  let _fmShadowed := if pfx ≠ [] then filterPfx pfx pfm else fm
  unflatten fm

/-- Modelled from the spec: what `Unmarshal` is documented to do with its
prefix — decode from only the keys beginning with `prefix + "."`, prefix
stripped, when the prefix is non-empty. -/
def unmarshalTreeSpec (pfx : GoStr) (flat : FlatMap) : Option Tree :=
  if pfx ≠ [] then unflatten (filterPfx pfx flat) else unflatten flat

/-! ## Claim C3 -/

/-- C3: the code ignores the prefix entirely — `unmarshalTree` equals
plain `unflatten` of the whole flat map for every prefix (first conjunct,
the bug).  At the spec's own example (store from the JSON test, prefix
`values.v1`) the code's tree has no top-level `b` but a top-level
`values`, while the documented behavior binds `b` at top level. -/
theorem C3_unmarshal_prefix_bug :
    (∀ (pfx : GoStr) (flat : FlatMap), unmarshalTree pfx flat = unflatten flat) ∧
    (unmarshalTree (gs "values.v1")
        [(gs "values.v1.b", Prim.bool true), (gs "values.v1.i", Prim.int (-42)),
         (gs "values.v1.d", Prim.str (gs "1m"))]).map
      (fun T => ((getk T (gs "b")).isSome, (getk T (gs "values")).isSome))
      = some (false, true) ∧
    (unmarshalTreeSpec (gs "values.v1")
        [(gs "values.v1.b", Prim.bool true), (gs "values.v1.i", Prim.int (-42)),
         (gs "values.v1.d", Prim.str (gs "1m"))]).map
      (fun T => ((getk T (gs "b")).isSome, (getk T (gs "values")).isSome))
      = some (true, false) :=
  ⟨fun _ _ => rfl, by decide, by decide⟩

end Gonfic
